import Mathlib

/-!
Verification of the "malhas" daily batch-status tracker.

The development shallowly embeds the two Python scripts of the repository,
`preencher_malhas.py` and `scripts/update_status.py`, and proves the frozen
claims about them.  Strings are modelled as Lean `String`s (lists of unicode
scalar values, matching CPython's code-point view of `str`); Python's `dict`
built by successive assignment is modelled as a fold that builds a lookup
function with last-write-wins semantics; JSON fields that may be absent or
`null` are modelled with `Option`.  Recursions that consume more than one
character per step are written with an explicit fuel argument (initialised
with the input length) so that every definition reduces inside the kernel;
the step-shaped unfolding lemmas are proved below and used everywhere.
-/

namespace Malhas

/-! ## Name normalizer (`preencher_malhas.normalize_name`, `update_status.norm`)

Python: `s = (s or "").strip().upper()`, `s = " ".join(s.split())`,
`s = s.replace("TH3 – OY", "TH3 - OY")`.

`str.strip()` / `str.split()` (no argument) split on the whitespace
characters below; `str.upper()` is modelled at the ASCII level by
`Char.toUpper` (the catalog data is in the basic latin range apart from the
en dash, which has no case); `str.replace` replaces non-overlapping
occurrences left to right. -/

/-- Python whitespace characters recognised by `str.strip` / `str.split`
(ASCII subset). -/
def isSp (c : Char) : Bool :=
  c = ' ' || c = '\t' || c = '\n' || c = '\r' || c = '\x0b' || c = '\x0c'

/-- Python `s.strip()`. -/
def pyStrip (l : List Char) : List Char :=
  ((l.dropWhile isSp).reverse.dropWhile isSp).reverse

/-- Python `s.upper()` (ASCII model, character by character). -/
def pyUpper (l : List Char) : List Char :=
  l.map Char.toUpper

/-- Fuelled worker for `pySplit`; the fuel is an upper bound on the number
of remaining characters, so the `0` case is never reached from `pySplit`. -/
def pySplitF : Nat → List Char → List (List Char)
  | 0, _ => []
  | fuel + 1, l =>
    match l.dropWhile isSp with
    | [] => []
    | c :: cs =>
      (c :: cs).takeWhile (fun c => !isSp c) ::
        pySplitF fuel ((c :: cs).dropWhile (fun c => !isSp c))

/-- Python `s.split()`: maximal runs of non-whitespace characters. -/
def pySplit (l : List Char) : List (List Char) :=
  pySplitF l.length l

/-- Python `" ".join(ws)`. -/
def pyJoin : List (List Char) → List Char
  | [] => []
  | [w] => w
  | w :: ws => w ++ ' ' :: pyJoin ws

/-- Fuelled worker for `replaceAll`; the fuel is an upper bound on the
number of remaining characters. -/
def replF (pat rep : List Char) : Nat → List Char → List Char
  | _, [] => []
  | 0, l => l
  | fuel + 1, c :: cs =>
    if pat ≠ [] ∧ pat.isPrefixOf (c :: cs) then
      rep ++ replF pat rep fuel (List.drop pat.length (c :: cs))
    else
      c :: replF pat rep fuel cs

/-- Python `s.replace(pat, rep)` for a non-empty `pat`: replace all
non-overlapping occurrences, scanning left to right. -/
def replaceAll (pat rep l : List Char) : List Char :=
  replF pat rep l.length l

/-- The malformed dash sequence fixed by the normalizer. -/
def patTH3 : List Char := "TH3 – OY".data

/-- Its canonical hyphen form. -/
def repTH3 : List Char := "TH3 - OY".data

/-- Core of the normalizer, on character lists. -/
def normCore (l : List Char) : List Char :=
  replaceAll patTH3 repTH3 (pyJoin (pySplit (pyUpper (pyStrip l))))

/-- `update_status.norm`: trim, collapse whitespace runs, uppercase, fix the
`TH3 – OY` dash variant. -/
def norm (s : String) : String :=
  ⟨normCore s.data⟩

/-- `preencher_malhas.normalize_name`: textually identical to
`update_status.norm`. -/
def normalize_name (s : String) : String :=
  ⟨normCore s.data⟩

/-! ### Unfolding lemmas for the fuelled recursions -/

theorem pySplitF_congr : ∀ (f₁ f₂ : Nat) (l : List Char), l.length ≤ f₁ → l.length ≤ f₂ →
    pySplitF f₁ l = pySplitF f₂ l := by
  intro f₁
  induction f₁ with
  | zero =>
    intro f₂ l h₁ h₂
    have hl : l = [] := List.length_eq_zero.mp (Nat.le_zero.mp h₁)
    subst hl
    cases f₂ with
    | zero => rfl
    | succ f => simp [pySplitF]
  | succ f₁ ih =>
    intro f₂ l h₁ h₂
    cases f₂ with
    | zero =>
      have hl : l = [] := List.length_eq_zero.mp (Nat.le_zero.mp h₂)
      subst hl
      simp [pySplitF]
    | succ f₂ =>
      simp only [pySplitF]
      cases hd : l.dropWhile isSp with
      | nil => rfl
      | cons c cs =>
        have hdl : (l.dropWhile isSp).length ≤ l.length := (List.dropWhile_sublist isSp).length_le
        rw [hd] at hdl
        have hsp : isSp c = false := by
          have h0 := List.head?_dropWhile_not isSp l
          rw [hd] at h0
          simpa using h0
        have hrec : ((c :: cs).dropWhile (fun c => !isSp c)).length ≤ cs.length := by
          rw [List.dropWhile_cons_of_pos (by simp [hsp])]
          exact (List.dropWhile_sublist _).length_le
        simp only [List.length_cons] at hdl
        dsimp only
        congr 1
        exact ih f₂ _ (by omega) (by omega)

theorem pySplit_eq (l : List Char) :
    pySplit l =
      match l.dropWhile isSp with
      | [] => []
      | c :: cs =>
        (c :: cs).takeWhile (fun c => !isSp c) ::
          pySplit ((c :: cs).dropWhile (fun c => !isSp c)) := by
  unfold pySplit
  cases hl : l.length with
  | zero =>
    have : l = [] := List.length_eq_zero.mp hl
    subst this
    simp [pySplitF]
  | succ n =>
    simp only [pySplitF]
    cases hd : l.dropWhile isSp with
    | nil => rfl
    | cons c cs =>
      have hdl : (l.dropWhile isSp).length ≤ l.length := (List.dropWhile_sublist isSp).length_le
      rw [hd] at hdl
      have hsp : isSp c = false := by
        have h0 := List.head?_dropWhile_not isSp l
        rw [hd] at h0
        simpa using h0
      have hrec : ((c :: cs).dropWhile (fun c => !isSp c)).length ≤ cs.length := by
        rw [List.dropWhile_cons_of_pos (by simp [hsp])]
        exact (List.dropWhile_sublist _).length_le
      simp only [List.length_cons] at hdl
      dsimp only
      congr 1
      exact pySplitF_congr n _ _ (by omega) (by omega)

theorem replF_congr (pat rep : List Char) : ∀ (f₁ f₂ : Nat) (l : List Char),
    l.length ≤ f₁ → l.length ≤ f₂ → replF pat rep f₁ l = replF pat rep f₂ l := by
  intro f₁
  induction f₁ with
  | zero =>
    intro f₂ l h₁ h₂
    have hl : l = [] := List.length_eq_zero.mp (Nat.le_zero.mp h₁)
    subst hl
    cases f₂ <;> rfl
  | succ f₁ ih =>
    intro f₂ l h₁ h₂
    cases l with
    | nil => cases f₂ <;> rfl
    | cons c cs =>
      cases f₂ with
      | zero => simp at h₂
      | succ f₂ =>
        simp only [replF]
        by_cases hp : pat ≠ [] ∧ pat.isPrefixOf (c :: cs)
        · simp only [if_pos hp]
          have hlen : 1 ≤ pat.length := by
            cases hq : pat with
            | nil => exact absurd hq hp.1
            | cons a as => simp
          have hd : (List.drop pat.length (c :: cs)).length ≤ cs.length := by
            simp only [List.length_drop, List.length_cons]
            omega
          simp only [List.length_cons] at h₁ h₂
          rw [ih f₂ _ (by omega) (by omega)]
        · simp only [if_neg hp]
          simp only [List.length_cons] at h₁ h₂
          rw [ih f₂ _ (by omega) (by omega)]

theorem replaceAll_nil (pat rep : List Char) : replaceAll pat rep [] = [] := rfl

theorem replaceAll_cons (pat rep : List Char) (c : Char) (cs : List Char) :
    replaceAll pat rep (c :: cs) =
      if pat ≠ [] ∧ pat.isPrefixOf (c :: cs) then
        rep ++ replaceAll pat rep (List.drop pat.length (c :: cs))
      else
        c :: replaceAll pat rep cs := by
  unfold replaceAll
  simp only [List.length_cons, replF]
  by_cases hp : pat ≠ [] ∧ pat.isPrefixOf (c :: cs)
  · simp only [if_pos hp]
    have hlen : 1 ≤ pat.length := by
      cases hq : pat with
      | nil => exact absurd hq hp.1
      | cons a as => simp
    have hd : (List.drop pat.length (c :: cs)).length ≤ cs.length := by
      simp only [List.length_drop, List.length_cons]
      omega
    exact congrArg (rep ++ ·) (replF_congr pat rep cs.length _ _ hd le_rfl)
  · simp only [if_neg hp]

/-! ### Idempotence of the normalizer: infrastructure -/

theorem charOfNat_toNat : ∀ n, n < 91 → 65 ≤ n → (Char.ofNat n).toNat = n := by decide

theorem toUpper_idem (c : Char) : c.toUpper.toUpper = c.toUpper := by
  simp only [Char.toUpper]
  by_cases h : c.toNat ≥ 97 ∧ c.toNat ≤ 122
  · rw [if_pos h]
    have h2 : (Char.ofNat (c.toNat - 32)).toNat = c.toNat - 32 :=
      charOfNat_toNat _ (by omega) (by omega)
    rw [h2, if_neg (by omega)]
  · rw [if_neg h, if_neg h]

/-- `l` only contains `' '` as whitespace. -/
def okSp (l : List Char) : Prop := ∀ c ∈ l, isSp c = true → c = ' '

/-- every character of `l` is fixed by the ASCII upper-case map. -/
def upFixed (l : List Char) : Prop := ∀ c ∈ l, c.toUpper = c

/-- no two adjacent whitespace characters. -/
def noDD (l : List Char) : Prop := l.Chain' (fun a b => isSp a = false ∨ isSp b = false)

/-- the first character, if any, is not whitespace. -/
def headOk (l : List Char) : Prop := ∀ c, l.head? = some c → isSp c = false

/-- the last character, if any, is not whitespace. -/
def lastOk (l : List Char) : Prop := ∀ c, l.getLast? = some c → isSp c = false

/-- a word produced by `pySplit`: non-empty, with no whitespace at all. -/
def goodWord (w : List Char) : Prop := w ≠ [] ∧ ∀ c ∈ w, isSp c = false

theorem pySplit_nil : pySplit [] = [] := rfl

theorem pySplit_goodWords : ∀ (n : Nat) (l : List Char), l.length ≤ n →
    ∀ w ∈ pySplit l, goodWord w := by
  intro n
  induction n with
  | zero =>
    intro l hl
    have : l = [] := List.length_eq_zero.mp (Nat.le_zero.mp hl)
    subst this
    simp [pySplit_nil]
  | succ n ih =>
    intro l hl w hw
    rw [pySplit_eq] at hw
    cases hd : l.dropWhile isSp with
    | nil => rw [hd] at hw; simp at hw
    | cons c cs =>
      rw [hd] at hw
      have hsp : isSp c = false := by
        have h0 := List.head?_dropWhile_not isSp l
        rw [hd] at h0
        simpa using h0
      have hdl : (l.dropWhile isSp).length ≤ l.length := (List.dropWhile_sublist isSp).length_le
      rw [hd] at hdl
      simp only [List.length_cons] at hdl
      rcases List.mem_cons.mp hw with hw | hw
      · subst hw
        constructor
        · rw [List.takeWhile_cons_of_pos (by simp [hsp])]
          simp
        · intro a ha
          have := List.mem_takeWhile_imp ha
          simpa using this
      · have hrec : ((c :: cs).dropWhile (fun c => !isSp c)).length ≤ cs.length := by
          rw [List.dropWhile_cons_of_pos (by simp [hsp])]
          exact (List.dropWhile_sublist _).length_le
        exact ih _ (by omega) w hw

theorem pySplit_subset : ∀ (n : Nat) (l : List Char), l.length ≤ n →
    ∀ w ∈ pySplit l, ∀ c ∈ w, c ∈ l := by
  intro n
  induction n with
  | zero =>
    intro l hl
    have : l = [] := List.length_eq_zero.mp (Nat.le_zero.mp hl)
    subst this
    simp [pySplit_nil]
  | succ n ih =>
    intro l hl w hw a ha
    rw [pySplit_eq] at hw
    cases hd : l.dropWhile isSp with
    | nil => rw [hd] at hw; simp at hw
    | cons c cs =>
      rw [hd] at hw
      have hsp : isSp c = false := by
        have h0 := List.head?_dropWhile_not isSp l
        rw [hd] at h0
        simpa using h0
      have hdl : (l.dropWhile isSp).length ≤ l.length := (List.dropWhile_sublist isSp).length_le
      rw [hd] at hdl
      simp only [List.length_cons] at hdl
      have hsub : (c :: cs) ⊆ l := by
        rw [← hd]
        exact (List.dropWhile_sublist isSp).subset
      rcases List.mem_cons.mp hw with hw | hw
      · subst hw
        exact hsub ((List.takeWhile_sublist _).subset ha)
      · have hrec : ((c :: cs).dropWhile (fun c => !isSp c)).length ≤ cs.length := by
          rw [List.dropWhile_cons_of_pos (by simp [hsp])]
          exact (List.dropWhile_sublist _).length_le
        exact hsub ((List.dropWhile_sublist _).subset (ih _ (by omega) w hw a ha))

theorem pyJoin_cons (w : List Char) (v : List Char) (ws : List (List Char)) :
    pyJoin (w :: v :: ws) = w ++ ' ' :: pyJoin (v :: ws) := rfl

theorem pyJoin_ne_nil : ∀ (ws : List (List Char)), ws ≠ [] → (∀ w ∈ ws, w ≠ []) →
    pyJoin ws ≠ [] := by
  intro ws hne hw
  match ws with
  | [w] => exact hw w (by simp)
  | w :: v :: ws =>
    rw [pyJoin_cons]
    have : w ≠ [] := hw w (by simp)
    simp [this]

theorem mem_pyJoin : ∀ (ws : List (List Char)) (c : Char), c ∈ pyJoin ws →
    c = ' ' ∨ ∃ w ∈ ws, c ∈ w := by
  intro ws
  induction ws with
  | nil => intro c hc; simp [pyJoin] at hc
  | cons w ws ih =>
    intro c hc
    cases ws with
    | nil =>
      right
      exact ⟨w, by simp, hc⟩
    | cons v ws' =>
      rw [pyJoin_cons] at hc
      rcases List.mem_append.mp hc with hc | hc
      · right; exact ⟨w, by simp, hc⟩
      · rcases List.mem_cons.mp hc with hc | hc
        · left; exact hc
        · rcases ih c hc with hc | ⟨u, hu, hcu⟩
          · left; exact hc
          · right; exact ⟨u, by simp [hu], hcu⟩

theorem noDD_of_all_nonsp : ∀ (l : List Char), (∀ c ∈ l, isSp c = false) → noDD l := by
  intro l
  induction l with
  | nil => intro _; exact List.chain'_nil
  | cons a t ih =>
    intro h
    cases t with
    | nil => exact List.chain'_singleton a
    | cons b t' =>
      rw [noDD, List.chain'_cons]
      exact ⟨Or.inl (h a (by simp)), ih (fun c hc => h c (by simp [hc]))⟩

theorem pyJoin_canon : ∀ (ws : List (List Char)), (∀ w ∈ ws, goodWord w) →
    okSp (pyJoin ws) ∧ noDD (pyJoin ws) ∧ headOk (pyJoin ws) ∧ lastOk (pyJoin ws) := by
  intro ws
  induction ws with
  | nil =>
    intro _
    refine ⟨by intro c hc; simp [pyJoin] at hc, List.chain'_nil, ?_, ?_⟩
    · intro c hc; simp [pyJoin] at hc
    · intro c hc; simp [pyJoin] at hc
  | cons w ws ih =>
    intro h
    have hgw : goodWord w := h w (by simp)
    cases ws with
    | nil =>
      refine ⟨?_, noDD_of_all_nonsp w hgw.2, ?_, ?_⟩
      · intro c hc hsp
        rw [hgw.2 c hc] at hsp
        cases hsp
      · intro c hc
        exact hgw.2 c (List.mem_of_mem_head? hc)
      · intro c hc
        exact hgw.2 c (List.mem_of_mem_getLast? hc)
    | cons v ws' =>
      have ihr := ih (fun u hu => h u (by simp [List.mem_cons.mp hu]))
      have hjnn : pyJoin (v :: ws') ≠ [] :=
        pyJoin_ne_nil _ (by simp) (fun u hu => (h u (by simp [List.mem_cons.mp hu])).1)
      rw [pyJoin_cons]
      refine ⟨?_, ?_, ?_, ?_⟩
      · intro c hc hsp
        rcases List.mem_append.mp hc with hc | hc
        · rw [hgw.2 c hc] at hsp; cases hsp
        · rcases List.mem_cons.mp hc with hc | hc
          · exact hc
          · exact ihr.1 c hc hsp
      · rw [noDD, List.chain'_append]
        refine ⟨noDD_of_all_nonsp w hgw.2, ?_, ?_⟩
        · rw [List.chain'_cons']
          refine ⟨?_, ihr.2.1⟩
          intro y hy
          exact Or.inr (ihr.2.2.1 y hy)
        · intro x hx y _
          exact Or.inl (hgw.2 x (List.mem_of_mem_getLast? hx))
      · intro c hc
        cases hw : w with
        | nil => exact absurd hw hgw.1
        | cons a t =>
          rw [hw] at hc
          simp only [List.cons_append, List.head?_cons, Option.some.injEq] at hc
          rw [← hc]
          exact hgw.2 a (by simp [hw])
      · intro c hc
        rw [List.getLast?_append] at hc
        have hj : (' ' :: pyJoin (v :: ws')).getLast? = (pyJoin (v :: ws')).getLast? := by
          cases hjv : pyJoin (v :: ws') with
          | nil => exact absurd hjv hjnn
          | cons b t => simp
        rw [hj] at hc
        cases hg : (pyJoin (v :: ws')).getLast? with
        | none =>
          rw [List.getLast?_eq_none_iff] at hg
          exact absurd hg hjnn
        | some b =>
          rw [hg] at hc
          simp only [Option.or_some, Option.some.injEq] at hc
          subst hc
          exact ihr.2.2.2 b hg

theorem getLast?_append_right {α : Type} {l₁ l₂ : List α} (h : l₂ ≠ []) :
    (l₁ ++ l₂).getLast? = l₂.getLast? := by
  rw [List.getLast?_append]
  cases hg : l₂.getLast? with
  | none => exact absurd (List.getLast?_eq_none_iff.mp hg) h
  | some b => simp

theorem patTH3_ne_nil : patTH3 ≠ [] := by decide

theorem patTH3_len : patTH3.length = 8 := by decide

theorem repTH3_okSp : ∀ c ∈ repTH3, isSp c = true → c = ' ' := by decide

theorem repTH3_upFixed : ∀ c ∈ repTH3, c.toUpper = c := by decide

theorem repTH3_noDD : noDD repTH3 := by
  have h : repTH3 = ['T', 'H', '3', ' ', '-', ' ', 'O', 'Y'] := by decide
  rw [noDD, h]
  repeat rw [List.chain'_cons]
  exact ⟨by decide, by decide, by decide, by decide, by decide, by decide, by decide,
    List.chain'_singleton 'Y'⟩

theorem repTH3_getLast? : repTH3.getLast? = some 'Y' := by decide

theorem repTH3_head? : repTH3.head? = some 'T' := by decide

theorem repTH3_ne_nil : repTH3 ≠ [] := by decide

theorem mem_replaceAll (pat rep : List Char) : ∀ (n : Nat) (l : List Char), l.length ≤ n →
    ∀ c ∈ replaceAll pat rep l, c ∈ rep ∨ c ∈ l := by
  intro n
  induction n with
  | zero =>
    intro l hl
    have : l = [] := List.length_eq_zero.mp (Nat.le_zero.mp hl)
    subst this
    simp [replaceAll_nil]
  | succ n ih =>
    intro l hl c hc
    cases l with
    | nil => simp [replaceAll_nil] at hc
    | cons a cs =>
      rw [replaceAll_cons] at hc
      simp only [List.length_cons] at hl
      by_cases hp : pat ≠ [] ∧ pat.isPrefixOf (a :: cs)
      · rw [if_pos hp] at hc
        rcases List.mem_append.mp hc with hc | hc
        · exact Or.inl hc
        · have hlen : 1 ≤ pat.length := List.length_pos.mpr hp.1
          have hdl : (List.drop pat.length (a :: cs)).length ≤ n := by
            simp only [List.length_drop, List.length_cons]
            omega
          rcases ih _ hdl c hc with h | h
          · exact Or.inl h
          · exact Or.inr (List.drop_subset _ _ h)
      · rw [if_neg hp] at hc
        rcases List.mem_cons.mp hc with hc | hc
        · exact Or.inr (by simp [hc])
        · rcases ih cs (by omega) c hc with h | h
          · exact Or.inl h
          · exact Or.inr (by simp [h])

theorem replaceAll_ne_nil (pat rep : List Char) (hrep : rep ≠ []) :
    ∀ (l : List Char), l ≠ [] → replaceAll pat rep l ≠ [] := by
  intro l hl
  cases l with
  | nil => exact absurd rfl hl
  | cons c cs =>
    rw [replaceAll_cons]
    by_cases hp : pat ≠ [] ∧ pat.isPrefixOf (c :: cs)
    · rw [if_pos hp]; simp [hrep]
    · rw [if_neg hp]; simp

theorem replace_canon : ∀ (n : Nat) (l : List Char), l.length ≤ n →
    okSp l → noDD l → lastOk l →
    noDD (replaceAll patTH3 repTH3 l) ∧ lastOk (replaceAll patTH3 repTH3 l) ∧
      (headOk l → headOk (replaceAll patTH3 repTH3 l)) := by
  intro n
  induction n with
  | zero =>
    intro l hl _ _ _
    have : l = [] := List.length_eq_zero.mp (Nat.le_zero.mp hl)
    subst this
    rw [replaceAll_nil]
    exact ⟨List.chain'_nil, by intro x hx; simp at hx, fun _ => by intro x hx; simp at hx⟩
  | succ n ih =>
    intro l hl hsp hdd hlast
    cases l with
    | nil =>
      rw [replaceAll_nil]
      exact ⟨List.chain'_nil, by intro x hx; simp at hx, fun _ => by intro x hx; simp at hx⟩
    | cons c cs =>
      simp only [List.length_cons] at hl
      rw [replaceAll_cons]
      by_cases hp : patTH3 ≠ [] ∧ patTH3.isPrefixOf (c :: cs)
      · rw [if_pos hp]
        have hpre : patTH3 <+: (c :: cs) := List.isPrefixOf_iff_prefix.mp hp.2
        obtain ⟨t, ht⟩ := hpre
        have hdrop : List.drop patTH3.length (c :: cs) = t := by
          rw [← ht, List.drop_left]
        rw [hdrop]
        have hddt : noDD t := by
          have := hdd
          rw [noDD, ← ht, List.chain'_append] at this
          exact this.2.1
        have hlastt : lastOk t := by
          intro x hx
          have htne : t ≠ [] := by
            intro h0
            rw [h0] at hx
            simp at hx
          apply hlast x
          rw [← ht, getLast?_append_right htne]
          exact hx
        have hspt : okSp t := by
          intro x hx
          apply hsp x
          rw [← ht]
          exact List.mem_append_right _ hx
        have hlent : t.length ≤ n := by
          have : patTH3.length + t.length = cs.length + 1 := by
            rw [← List.length_append, ht]
            simp
          rw [patTH3_len] at this
          omega
        have IH := ih t hlent hspt hddt hlastt
        refine ⟨?_, ?_, ?_⟩
        · rw [noDD, List.chain'_append]
          refine ⟨repTH3_noDD, IH.1, ?_⟩
          intro x hx y _
          rw [repTH3_getLast?] at hx
          have : 'Y' = x := by simpa using hx
          subst this
          exact Or.inl (by decide)
        · intro x hx
          cases hR : replaceAll patTH3 repTH3 t with
          | nil =>
            rw [hR, List.append_nil, repTH3_getLast?] at hx
            have : 'Y' = x := by simpa using hx
            subst this
            decide
          | cons b bs =>
            rw [getLast?_append_right (by rw [hR]; simp)] at hx
            exact IH.2.1 x hx
        · intro _
          intro x hx
          rw [List.head?_append, repTH3_head?] at hx
          have : 'T' = x := by simpa using hx
          subst this
          decide
      · rw [if_neg hp]
        have hddc : noDD cs := by
          have h0 : List.Chain' (fun a b => isSp a = false ∨ isSp b = false) (c :: cs) := hdd
          simpa using h0.tail
        have hlastc : lastOk cs := by
          intro x hx
          apply hlast x
          cases hcs : cs with
          | nil => rw [hcs] at hx; simp at hx
          | cons b t =>
            rw [hcs] at hx
            rw [List.getLast?_cons_cons]
            exact hx
        have hspc : okSp cs := fun x hx => hsp x (by simp [hx])
        have IH := ih cs (by omega) hspc hddc hlastc
        refine ⟨?_, ?_, ?_⟩
        · rw [noDD, List.chain'_cons']
          refine ⟨?_, IH.1⟩
          intro y hy
          by_cases hc : isSp c = true
          · right
            cases hcs : cs with
            | nil =>
              rw [hcs, replaceAll_nil] at hy
              simp at hy
            | cons b t =>
              have hRcb : isSp c = false ∨ isSp b = false := by
                have h0 : List.Chain' (fun a b => isSp a = false ∨ isSp b = false)
                    (c :: b :: t) := by rw [← hcs]; exact hdd
                exact (List.chain'_cons.mp h0).1
              have hokcs : headOk cs := by
                intro z hz
                rw [hcs, List.head?_cons] at hz
                have : z = b := by simpa using hz.symm
                subst this
                rcases hRcb with h | h
                · rw [hc] at h; cases h
                · exact h
              exact IH.2.2 hokcs y hy
          · exact Or.inl (by simpa using hc)
        · intro x hx
          cases hR : replaceAll patTH3 repTH3 cs with
          | nil =>
            have hcse : cs = [] := by
              by_contra hne
              exact replaceAll_ne_nil patTH3 repTH3 repTH3_ne_nil cs hne hR
            rw [hR] at hx
            have : c = x := by simpa using hx
            subst this
            apply hlast c
            rw [hcse]
            simp
          | cons b bs =>
            rw [hR, List.getLast?_cons_cons] at hx
            apply IH.2.1 x
            rw [hR]
            exact hx
        · intro hok x hx
          have : c = x := by simpa using hx
          subst this
          exact hok c rfl

theorem dropWhile_isSp_eq_self {l : List Char} (h : headOk l) : l.dropWhile isSp = l := by
  cases l with
  | nil => rfl
  | cons c cs =>
    have hc : isSp c = false := h c rfl
    rw [List.dropWhile_cons_of_neg (by simp [hc])]

theorem pyStrip_eq_self {l : List Char} (h1 : headOk l) (h2 : lastOk l) : pyStrip l = l := by
  unfold pyStrip
  rw [dropWhile_isSp_eq_self h1]
  have hrev : headOk l.reverse := by
    intro c hc
    rw [List.head?_reverse] at hc
    exact h2 c hc
  rw [dropWhile_isSp_eq_self hrev, List.reverse_reverse]

theorem pyUpper_eq_self {l : List Char} (h : upFixed l) : pyUpper l = l := by
  unfold pyUpper
  have h2 : l.map Char.toUpper = l.map (fun c => c) := List.map_congr_left h
  rw [h2]
  exact List.map_id' l

theorem pySplit_cons_sp (d : List Char) : pySplit (' ' :: d) = pySplit d := by
  rw [pySplit_eq (' ' :: d), pySplit_eq d]
  rw [List.dropWhile_cons_of_pos (by decide)]

theorem canon_join_split : ∀ (n : Nat) (l : List Char), l.length ≤ n →
    okSp l → noDD l → headOk l → lastOk l → pyJoin (pySplit l) = l := by
  intro n
  induction n with
  | zero =>
    intro l hl _ _ _ _
    have : l = [] := List.length_eq_zero.mp (Nat.le_zero.mp hl)
    subst this
    rfl
  | succ n ih =>
    intro l hl hok hdd hhead hlast
    cases l with
    | nil => rfl
    | cons c cs =>
      simp only [List.length_cons] at hl
      rw [pySplit_eq, dropWhile_isSp_eq_self hhead]
      dsimp only
      have hcns : isSp c = false := hhead c rfl
      have htw : (c :: cs).takeWhile (fun x => !isSp x) ++
          (c :: cs).dropWhile (fun x => !isSp x) = c :: cs :=
        List.takeWhile_append_dropWhile _ _
      have htne : (c :: cs).takeWhile (fun x => !isSp x) ≠ [] := by
        rw [List.takeWhile_cons_of_pos (by simp [hcns])]
        simp
      cases hd2 : (c :: cs).dropWhile (fun x => !isSp x) with
      | nil =>
        rw [pySplit_nil]
        rw [hd2, List.append_nil] at htw
        exact htw
      | cons c₂ d' =>
        have hc₂sp : isSp c₂ = true := by
          have h0 := List.head?_dropWhile_not (fun x => !isSp x) (c :: cs)
          rw [hd2] at h0
          simpa using h0
        have hc₂mem : c₂ ∈ c :: cs := by
          rw [← htw, hd2]
          exact List.mem_append_right _ (by simp)
        have hc₂ : c₂ = ' ' := hok c₂ hc₂mem hc₂sp
        subst hc₂
        have hdsuf : (' ' :: d') <:+ (c :: cs) := by
          rw [← hd2]
          exact List.dropWhile_suffix _
        have hd'ne : d' ≠ [] := by
          intro h0
          rw [h0] at hd2
          have : (c :: cs).getLast? = some ' ' := by
            rw [← htw, hd2, getLast?_append_right (by simp)]
            rfl
          have := hlast ' ' this
          simp [isSp] at this
        have hchaind : List.Chain' (fun a b => isSp a = false ∨ isSp b = false) (' ' :: d') :=
          List.Chain'.suffix hdd hdsuf
        have hheadd' : headOk d' := by
          intro z hz
          have h0 := (List.chain'_cons'.mp hchaind).1 z (by rw [hz]; rfl)
          rcases h0 with h0 | h0
          · simp [isSp] at h0
          · exact h0
        have hokd' : okSp d' := by
          intro z hz hzsp
          apply hok z _ hzsp
          exact (hdsuf.subset) (by simp [hz])
        have hddd' : noDD d' := by
          have := hchaind.tail
          simpa using this
        have hlastd' : lastOk d' := by
          intro z hz
          apply hlast z
          rw [← htw, hd2, getLast?_append_right (by simp)]
          cases hd' : d' with
          | nil => exact absurd hd' hd'ne
          | cons b t =>
            rw [List.getLast?_cons_cons]
            rw [hd'] at hz
            exact hz
        have hlend' : d'.length ≤ n := by
          have h1 : ((c :: cs).takeWhile (fun x => !isSp x)).length +
              (' ' :: d').length = (c :: cs).length := by
            rw [← List.length_append, ← hd2, htw]
          have h2 : 1 ≤ ((c :: cs).takeWhile (fun x => !isSp x)).length :=
            List.length_pos.mpr htne
          simp only [List.length_cons] at h1
          omega
        have hIH := ih d' hlend' hokd' hddd' hheadd' hlastd'
        rw [pySplit_cons_sp]
        have hpsne : pySplit d' ≠ [] := by
          intro h0
          rw [h0] at hIH
          exact hd'ne hIH.symm
        obtain ⟨w, ws, hws⟩ := List.exists_cons_of_ne_nil hpsne
        rw [hws, pyJoin_cons, ← hws, hIH, ← hd2]
        exact htw

theorem pat_not_infix_rep : ¬ patTH3 <:+: repTH3 := by decide

theorem pat_take_not_suffix : ∀ k, k < 8 → 1 ≤ k → ¬ (patTH3.take k <:+ repTH3) := by decide

theorem pat_drop_not_prefix : ∀ k, k < 8 → 1 ≤ k → ¬ (patTH3.drop k <+: repTH3) := by decide

theorem repTH3_len : repTH3.length = 8 := by decide

theorem infix_append_split {α : Type} {p xs ys : List α} (h : p <:+: xs ++ ys) :
    p <:+: xs ∨ p <:+: ys ∨
      ∃ p₁ p₂, p = p₁ ++ p₂ ∧ p₁ ≠ [] ∧ p₂ ≠ [] ∧ p₁ <:+ xs ∧ p₂ <+: ys := by
  induction xs with
  | nil => exact Or.inr (Or.inl (by simpa using h))
  | cons x xs ih =>
    rw [List.cons_append, List.infix_cons_iff] at h
    rcases h with h | h
    · by_cases hlen : p.length ≤ (x :: xs).length
      · left
        refine (List.prefix_of_prefix_length_le h ?_ hlen).isInfix
        rw [← List.cons_append]
        exact List.prefix_append _ _
      · push_neg at hlen
        have h2 : (x :: xs) <+: p := by
          refine List.prefix_of_prefix_length_le ?_ h (by omega)
          rw [← List.cons_append]
          exact List.prefix_append _ _
        obtain ⟨p₂, hp₂⟩ := h2
        have hp₂pre : p₂ <+: ys := by
          have h3 : (x :: xs) ++ p₂ <+: (x :: xs) ++ ys := by
            rw [hp₂, List.cons_append]
            exact h
          exact (List.prefix_append_right_inj _).mp h3
        cases hp2e : p₂ with
        | nil =>
          left
          have hpx : p = x :: xs := by rw [← hp₂, hp2e, List.append_nil]
          rw [hpx]
        | cons b t =>
          right; right
          exact ⟨x :: xs, p₂, hp₂.symm, by simp, by rw [hp2e]; simp,
            List.suffix_rfl, hp₂pre⟩
    · rcases ih h with h1 | h1 | ⟨p₁, p₂, hpe, hp₁ne, hp₂ne, hsuf, hpre⟩
      · exact Or.inl (List.infix_cons h1)
      · exact Or.inr (Or.inl h1)
      · exact Or.inr (Or.inr ⟨p₁, p₂, hpe, hp₁ne, hp₂ne, hsuf.trans (List.suffix_cons x xs), hpre⟩)

theorem replace_no_occ : ∀ (n : Nat) (l : List Char), l.length ≤ n →
    (¬ patTH3 <:+: replaceAll patTH3 repTH3 l) ∧
    (∀ k, 1 ≤ k → k < 8 →
      patTH3.drop k <+: replaceAll patTH3 repTH3 l → patTH3.drop k <+: l) := by
  intro n
  induction n with
  | zero =>
    intro l hl
    have : l = [] := List.length_eq_zero.mp (Nat.le_zero.mp hl)
    subst this
    rw [replaceAll_nil]
    constructor
    · intro hinf
      exact patTH3_ne_nil (List.infix_nil.mp hinf)
    · intro k hk1 hk8 hpre
      exact hpre
  | succ n ih =>
    intro l hl
    cases l with
    | nil =>
      rw [replaceAll_nil]
      constructor
      · intro hinf
        exact patTH3_ne_nil (List.infix_nil.mp hinf)
      · intro k hk1 hk8 hpre
        exact hpre
    | cons c cs =>
      simp only [List.length_cons] at hl
      rw [replaceAll_cons]
      by_cases hp : patTH3 ≠ [] ∧ patTH3.isPrefixOf (c :: cs)
      · rw [if_pos hp]
        obtain ⟨t, ht⟩ := List.isPrefixOf_iff_prefix.mp hp.2
        have hdrop : List.drop patTH3.length (c :: cs) = t := by
          rw [← ht, List.drop_left]
        rw [hdrop]
        have hlent : t.length ≤ n := by
          have : patTH3.length + t.length = cs.length + 1 := by
            rw [← List.length_append, ht]
            simp
          rw [patTH3_len] at this
          omega
        have IH := ih t hlent
        constructor
        · intro hinf
          rcases infix_append_split hinf with h1 | h1 | ⟨p₁, p₂, hpe, hp₁ne, hp₂ne, hsuf, hpre⟩
          · exact pat_not_infix_rep h1
          · exact IH.1 h1
          · have hk1 : 1 ≤ p₁.length := List.length_pos.mpr hp₁ne
            have hk2 : p₁.length < 8 := by
              have hsum : p₁.length + p₂.length = 8 := by
                rw [← List.length_append, ← hpe, patTH3_len]
              have : 1 ≤ p₂.length := List.length_pos.mpr hp₂ne
              omega
            have hptake : p₁ = patTH3.take p₁.length :=
              List.prefix_iff_eq_take.mp ⟨p₂, hpe.symm⟩
            exact pat_take_not_suffix p₁.length hk2 hk1 (hptake ▸ hsuf)
        · intro k hk1 hk8 hpre
          exfalso
          have hlen : (patTH3.drop k).length ≤ repTH3.length := by
            rw [List.length_drop, patTH3_len, repTH3_len]
            omega
          have h2 : patTH3.drop k <+: repTH3 :=
            List.prefix_of_prefix_length_le hpre (List.prefix_append _ _) hlen
          exact pat_drop_not_prefix k hk8 hk1 h2
      · rw [if_neg hp]
        have hnpre : ¬ patTH3 <+: (c :: cs) := by
          intro h0
          exact hp ⟨patTH3_ne_nil, List.isPrefixOf_iff_prefix.mpr h0⟩
        have IH := ih cs (by omega)
        constructor
        · intro hinf
          rcases List.infix_cons_iff.mp hinf with h1 | h1
          · rcases List.prefix_cons_iff.mp h1 with h2 | ⟨t, hte, htpre⟩
            · exact patTH3_ne_nil h2
            · have htd : patTH3.drop 1 = t := by
                rw [List.drop_one, hte, List.tail_cons]
              have h3 : patTH3.drop 1 <+: cs := IH.2 1 (by omega) (by omega) (htd ▸ htpre)
              apply hnpre
              rw [hte, List.cons_prefix_cons]
              exact ⟨rfl, htd ▸ h3⟩
          · exact IH.1 h1
        · intro k hk1 hk8 hpre
          have hkd : patTH3.drop k ≠ [] := by
            intro h0
            have := congrArg List.length h0
            rw [List.length_drop, patTH3_len] at this
            simp at this
            omega
          rcases List.prefix_cons_iff.mp hpre with h2 | ⟨t, hte, htpre⟩
          · exact absurd h2 hkd
          · have htd : patTH3.drop (k + 1) = t := by
              have h3 := congrArg List.tail hte
              rw [List.tail_drop] at h3
              simpa using h3
            by_cases hk7 : k + 1 < 8
            · have h3 : patTH3.drop (k + 1) <+: cs :=
                IH.2 (k + 1) (by omega) hk7 (htd ▸ htpre)
              rw [hte, List.cons_prefix_cons]
              exact ⟨rfl, htd ▸ h3⟩
            · have ht0 : t = [] := by
                have h4 := congrArg List.length hte
                rw [List.length_drop, patTH3_len] at h4
                simp only [List.length_cons] at h4
                have : t.length = 0 := by omega
                exact List.length_eq_zero.mp this
              rw [hte, ht0, List.cons_prefix_cons]
              exact ⟨rfl, List.nil_prefix⟩

theorem replace_id_of_no_occ : ∀ (n : Nat) (l : List Char), l.length ≤ n →
    ¬ patTH3 <:+: l → replaceAll patTH3 repTH3 l = l := by
  intro n
  induction n with
  | zero =>
    intro l hl _
    have : l = [] := List.length_eq_zero.mp (Nat.le_zero.mp hl)
    subst this
    rfl
  | succ n ih =>
    intro l hl hninf
    cases l with
    | nil => rfl
    | cons c cs =>
      simp only [List.length_cons] at hl
      rw [replaceAll_cons]
      have hnp : ¬ (patTH3 ≠ [] ∧ patTH3.isPrefixOf (c :: cs)) := by
        intro hpp
        exact hninf ((List.isPrefixOf_iff_prefix.mp hpp.2).isInfix)
      rw [if_neg hnp]
      have h2 : ¬ patTH3 <:+: cs := fun h => hninf (List.infix_cons h)
      rw [ih cs (by omega) h2]

theorem toUpper_space : Char.toUpper ' ' = ' ' := by decide

theorem normCore_canon (l : List Char) :
    okSp (normCore l) ∧ noDD (normCore l) ∧ headOk (normCore l) ∧ lastOk (normCore l) ∧
      upFixed (normCore l) ∧ ¬ patTH3 <:+: normCore l := by
  have hgw : ∀ w ∈ pySplit (pyUpper (pyStrip l)), goodWord w :=
    pySplit_goodWords (pyUpper (pyStrip l)).length _ le_rfl
  have hjc := pyJoin_canon (pySplit (pyUpper (pyStrip l))) hgw
  have hcanon := replace_canon (pyJoin (pySplit (pyUpper (pyStrip l)))).length _ le_rfl
    hjc.1 hjc.2.1 hjc.2.2.2
  refine ⟨?_, hcanon.1, hcanon.2.2 hjc.2.2.1, hcanon.2.1, ?_, (replace_no_occ _ _ le_rfl).1⟩
  · intro c hc hcsp
    rcases mem_replaceAll patTH3 repTH3 _ _ le_rfl c hc with h | h
    · exact repTH3_okSp c h hcsp
    · exact hjc.1 c h hcsp
  · intro c hc
    rcases mem_replaceAll patTH3 repTH3 _ _ le_rfl c hc with h | h
    · exact repTH3_upFixed c h
    · rcases mem_pyJoin _ c h with h2 | ⟨w, hw, hcw⟩
      · rw [h2]
        exact toUpper_space
      · have hcx : c ∈ pyUpper (pyStrip l) :=
          pySplit_subset (pyUpper (pyStrip l)).length _ le_rfl w hw c hcw
        rcases List.mem_map.mp hcx with ⟨a, _, ha⟩
        rw [← ha]
        exact toUpper_idem a

theorem normCore_idem (l : List Char) : normCore (normCore l) = normCore l := by
  obtain ⟨h1, h2, h3, h4, h5, h6⟩ := normCore_canon l
  conv_lhs => rw [normCore]
  rw [pyStrip_eq_self h3 h4, pyUpper_eq_self h5,
    canon_join_split (normCore l).length _ le_rfl h1 h2 h3 h4,
    replace_id_of_no_occ (normCore l).length _ le_rfl h6]

/-- **C5.** The name normalizer is idempotent: for every input string `s`,
normalizing twice yields the same result as normalizing once, for both
`update_status.norm` and `preencher_malhas.normalize_name` (the normalizer
trims, collapses internal whitespace runs, uppercases, and replaces the
malformed dash sequence `TH3 – OY` with `TH3 - OY`). -/
theorem norm_idempotent (s : String) :
    norm (norm s) = norm s ∧ normalize_name (normalize_name s) = normalize_name s := by
  constructor
  · show (⟨normCore (normCore s.data)⟩ : String) = ⟨normCore s.data⟩
    rw [normCore_idem]
  · show (⟨normCore (normCore s.data)⟩ : String) = ⟨normCore s.data⟩
    rw [normCore_idem]

/-! ## Catalog entries and the fixed ordering configuration

`ORDEM_CATEGORIAS` and `ORDEM_MALHAS` are textually identical in
`preencher_malhas.py` and `scripts/update_status.py`; `ORDEM_MALHAS` is
modelled as the total function `dict.get(cat, [])` used by the sources. -/

structure CatalogEntry where
  id : String
  nome : String
  categoria : String
deriving DecidableEq

def ORDEM_CATEGORIAS : List String :=
  ["Rotativos", "Parcelados", "Modelos", "Gestão PJ e Alto Risco", "Semanal"]

def ORDEM_MALHAS (cat : String) : List String :=
  if cat = "Rotativos" then
    ["ORIGENS", "ADMISSAO", "TETO V2", "CMA", "GESTAO", "CHEQUE", "CONCESSAO CARTAO",
     "CONCESSAO CHEQUE", "SUPER CREDITO", "RENOVACAO LIMITES SEMANAL", "OVERLIMIT CLOUD",
     "ATUALIZACAO OVERLIMIT ONLINE MF", "OVERLIMIT CARTAO"]
  else if cat = "Parcelados" then
    ["CONSIGNADO", "CONSORCIO", "CP INVESTIDOR", "MICROCREDITO", "RX", "TH3 - OY",
     "IMOBILIARIO"]
  else if cat = "Modelos" then
    ["BULKLOAD PF ROTATIVOS", "CMA PF", "DNA", "FATURAMENTO", "MODELOS PF PARCELADOS",
     "MODELOS PF ROTATIVOS", "THR", "RENDAS"]
  else if cat = "Gestão PJ e Alto Risco" then
    ["BULKLOAD PRAT CPF_CNPJ", "PREVENTIVO PF", "LISTA PREV PJ SEMANAL", "REDUCAO SEMANAL",
     "REDUCAO MENSAL"]
  else if cat = "Semanal" then
    ["THD SEMANAL", "THJ SEMANAL", "SUPER CREDITO SEMANAL", "OVERLIMIT CHEQUE SEMANAL",
     "RENOVADOR CHEQUE SEMANAL", "RX SEMANAL", "IMOBILIARIO PREVENTIVO - SEMANAL",
     "STATUS MQ"]
  else []

/-- `cat_order` inside `sort_catalogo`: `ORDEM_CATEGORIAS.index(cat)`, with the
`ValueError` branch returning the sentinel rank `999`. -/
def cat_order (cat : String) : Nat :=
  match ORDEM_CATEGORIAS.findIdx? (fun c => c == cat) with
  | some i => i
  | none => 999

/-- `malha_order` inside `sort_catalogo`: index of the normalized name in the
category's fixed list, with the `ValueError` branch returning the sentinel
rank `9999`. -/
def malha_order (cat nome : String) : Nat :=
  match (ORDEM_MALHAS cat).findIdx? (fun c => c == norm nome) with
  | some i => i
  | none => 9999

/-- Lexicographic comparison of two character lists by unicode code point:
CPython's `str < str`, used by `sorted` on the third component of the key
tuple. -/
def lexLt : List Char → List Char → Bool
  | [], [] => false
  | [], _ :: _ => true
  | _ :: _, [] => false
  | a :: as, b :: bs =>
    if a.toNat < b.toNat then true
    else if b.toNat < a.toNat then false
    else lexLt as bs

/-- The sort key tuple of `sort_catalogo`:
`(cat_order(categoria), malha_order(categoria, nome), norm(nome))`. -/
def sortKey (c : CatalogEntry) : Nat × Nat × List Char :=
  (cat_order c.categoria, malha_order c.categoria c.nome, (norm c.nome).data)

/-- Lexicographic `≤` on key tuples, as CPython's tuple comparison used by
`sorted(catalogo, key=...)`. -/
def keyLe (a b : Nat × Nat × List Char) : Bool :=
  decide (a.1 < b.1) || (a.1 == b.1 &&
    (decide (a.2.1 < b.2.1) || (a.2.1 == b.2.1 && !(lexLt b.2.2 a.2.2))))

/-- `sort_catalogo` (both scripts): Python's stable `sorted` by the key tuple,
modelled by the stable `List.mergeSort`. -/
def sort_catalogo (catalogo : List CatalogEntry) : List CatalogEntry :=
  catalogo.mergeSort (fun a b => keyLe (sortKey a) (sortKey b))

theorem char_eq_of_toNat_eq {a b : Char} (h : a.toNat = b.toNat) : a = b := by
  have h2 := congrArg Char.ofNat h
  rwa [Char.ofNat_toNat, Char.ofNat_toNat] at h2

theorem lexLt_irrefl : ∀ (l : List Char), lexLt l l = false := by
  intro l
  induction l with
  | nil => rfl
  | cons a as ih => simp [lexLt, ih]

theorem lexLt_trans : ∀ (a b c : List Char),
    lexLt a b = true → lexLt b c = true → lexLt a c = true := by
  intro a
  induction a with
  | nil =>
    intro b c hab hbc
    cases b with
    | nil => simp [lexLt] at hab
    | cons y bs =>
      cases c with
      | nil => simp [lexLt] at hbc
      | cons z cs => simp [lexLt]
  | cons x as ih =>
    intro b c hab hbc
    cases b with
    | nil => simp [lexLt] at hab
    | cons y bs =>
      cases c with
      | nil => simp [lexLt] at hbc
      | cons z cs =>
        simp only [lexLt] at hab hbc ⊢
        by_cases h1 : x.toNat < y.toNat
        · by_cases h2 : y.toNat < z.toNat
          · rw [if_pos (by omega)]
          · rw [if_neg h2] at hbc
            by_cases h3 : z.toNat < y.toNat
            · rw [if_pos h3] at hbc; cases hbc
            · rw [if_pos (by omega)]
        · rw [if_neg h1] at hab
          by_cases h4 : y.toNat < x.toNat
          · rw [if_pos h4] at hab; cases hab
          · rw [if_neg h4] at hab
            by_cases h2 : y.toNat < z.toNat
            · rw [if_pos (by omega)]
            · rw [if_neg h2] at hbc
              by_cases h3 : z.toNat < y.toNat
              · rw [if_pos h3] at hbc; cases hbc
              · rw [if_neg h3] at hbc
                rw [if_neg (by omega), if_neg (by omega)]
                exact ih bs cs hab hbc

theorem lexLt_trichotomy : ∀ (a b : List Char),
    lexLt a b = true ∨ a = b ∨ lexLt b a = true := by
  intro a
  induction a with
  | nil =>
    intro b
    cases b with
    | nil => exact Or.inr (Or.inl rfl)
    | cons y bs => exact Or.inl rfl
  | cons x as ih =>
    intro b
    cases b with
    | nil => exact Or.inr (Or.inr rfl)
    | cons y bs =>
      rcases Nat.lt_trichotomy x.toNat y.toNat with h | h | h
      · exact Or.inl (by simp [lexLt, h])
      · have hxy : x = y := char_eq_of_toNat_eq h
        subst hxy
        rcases ih bs with h2 | h2 | h2
        · exact Or.inl (by simp [lexLt, h2])
        · exact Or.inr (Or.inl (by rw [h2]))
        · exact Or.inr (Or.inr (by simp [lexLt, h2]))
      · exact Or.inr (Or.inr (by simp [lexLt, h]))

theorem lexLt_asymm {a b : List Char} (h : lexLt a b = true) : lexLt b a = false := by
  by_contra h2
  rw [Bool.not_eq_false] at h2
  have := lexLt_trans a b a h h2
  rw [lexLt_irrefl] at this
  cases this

theorem lexLt_false_trans {a b c : List Char} (h1 : lexLt b a = false)
    (h2 : lexLt c b = false) : lexLt c a = false := by
  by_contra h3
  rw [Bool.not_eq_false] at h3
  rcases lexLt_trichotomy a b with h | h | h
  · have h5 := lexLt_trans c a b h3 h
    rw [h5] at h2
    cases h2
  · subst h
    rw [h3] at h2
    cases h2
  · rw [h1] at h
    cases h

theorem keyLe_trans (a b c : Nat × Nat × List Char)
    (hab : keyLe a b = true) (hbc : keyLe b c = true) : keyLe a c = true := by
  simp only [keyLe, Bool.or_eq_true, Bool.and_eq_true, decide_eq_true_eq, beq_iff_eq,
    Bool.not_eq_true'] at hab hbc ⊢
  rcases hab with hab | ⟨hab1, hab2⟩
  · rcases hbc with hbc | ⟨hbc1, hbc2⟩
    · exact Or.inl (by omega)
    · exact Or.inl (by omega)
  · rcases hbc with hbc | ⟨hbc1, hbc2⟩
    · exact Or.inl (by omega)
    · refine Or.inr ⟨by omega, ?_⟩
      rcases hab2 with hab2 | ⟨hab3, hab4⟩
      · rcases hbc2 with hbc2 | ⟨hbc3, hbc4⟩
        · exact Or.inl (by omega)
        · exact Or.inl (by omega)
      · rcases hbc2 with hbc2 | ⟨hbc3, hbc4⟩
        · exact Or.inl (by omega)
        · exact Or.inr ⟨by omega, lexLt_false_trans hab4 hbc4⟩

theorem keyLe_total (a b : Nat × Nat × List Char) :
    (keyLe a b || keyLe b a) = true := by
  simp only [keyLe, Bool.or_eq_true, Bool.and_eq_true, decide_eq_true_eq, beq_iff_eq,
    Bool.not_eq_true'] at *
  rcases Nat.lt_trichotomy a.1 b.1 with h | h | h
  · exact Or.inl (Or.inl h)
  · rcases Nat.lt_trichotomy a.2.1 b.2.1 with h2 | h2 | h2
    · exact Or.inl (Or.inr ⟨h, Or.inl h2⟩)
    · rcases lexLt_trichotomy a.2.2 b.2.2 with h3 | h3 | h3
      · exact Or.inl (Or.inr ⟨h, Or.inr ⟨h2, lexLt_asymm h3⟩⟩)
      · exact Or.inl (Or.inr ⟨h, Or.inr ⟨h2, by rw [h3, lexLt_irrefl]⟩⟩)
      · exact Or.inr (Or.inr ⟨h.symm, Or.inr ⟨h2.symm, lexLt_asymm h3⟩⟩)
    · exact Or.inr (Or.inr ⟨h.symm, Or.inl h2⟩)
  · exact Or.inr (Or.inl h)

theorem sort_catalogo_sorted (catalogo : List CatalogEntry) :
    (sort_catalogo catalogo).Pairwise (fun a b => keyLe (sortKey a) (sortKey b) = true) := by
  have h := @List.sorted_mergeSort CatalogEntry (fun a b => keyLe (sortKey a) (sortKey b))
    (fun a b c hab hbc => keyLe_trans _ _ _ hab hbc)
    (fun a b => keyLe_total _ _) catalogo
  exact h

theorem sort_catalogo_perm (catalogo : List CatalogEntry) :
    (sort_catalogo catalogo).Perm catalogo :=
  List.mergeSort_perm catalogo _

/-- **C4.** For every catalog, `sort_catalogo` produces an order in which an
operation with a strictly smaller category rank (index in the fixed category
list; unknown categories get the sentinel rank 999, larger than any real
index) always precedes one with a larger category rank; within equal
category rank, a strictly smaller per-category name rank (index in that
category's fixed name list; unknown names get the sentinel 9999) always
comes first; and with both ranks equal, the normalized name decides
lexicographically (by unicode code point, `lexLt`). -/
theorem sort_catalogo_order (catalogo : List CatalogEntry) (i j : Nat)
    (hi : i < (sort_catalogo catalogo).length) (hj : j < (sort_catalogo catalogo).length) :
    (cat_order ((sort_catalogo catalogo)[i]).categoria <
        cat_order ((sort_catalogo catalogo)[j]).categoria → i < j) ∧
    (cat_order ((sort_catalogo catalogo)[i]).categoria =
        cat_order ((sort_catalogo catalogo)[j]).categoria →
      malha_order ((sort_catalogo catalogo)[i]).categoria ((sort_catalogo catalogo)[i]).nome <
        malha_order ((sort_catalogo catalogo)[j]).categoria ((sort_catalogo catalogo)[j]).nome →
      i < j) ∧
    (cat_order ((sort_catalogo catalogo)[i]).categoria =
        cat_order ((sort_catalogo catalogo)[j]).categoria →
      malha_order ((sort_catalogo catalogo)[i]).categoria ((sort_catalogo catalogo)[i]).nome =
        malha_order ((sort_catalogo catalogo)[j]).categoria ((sort_catalogo catalogo)[j]).nome →
      lexLt (norm ((sort_catalogo catalogo)[i]).nome).data
        (norm ((sort_catalogo catalogo)[j]).nome).data = true →
      i < j) := by
  have hpw := List.pairwise_iff_getElem.mp (sort_catalogo_sorted catalogo)
  refine ⟨?_, ?_, ?_⟩
  · intro hlt
    by_contra h0
    rcases Nat.lt_or_ge j i with hji | hji
    · have hle := hpw j i hj hi hji
      simp only [keyLe, sortKey, Bool.or_eq_true, Bool.and_eq_true, decide_eq_true_eq,
        beq_iff_eq, Bool.not_eq_true'] at hle
      rcases hle with h | ⟨h, _⟩ <;> omega
    · have hij : i = j := by omega
      subst hij
      omega
  · intro hceq hlt
    by_contra h0
    rcases Nat.lt_or_ge j i with hji | hji
    · have hle := hpw j i hj hi hji
      simp only [keyLe, sortKey, Bool.or_eq_true, Bool.and_eq_true, decide_eq_true_eq,
        beq_iff_eq, Bool.not_eq_true'] at hle
      rcases hle with h | ⟨h, h2 | ⟨h2, _⟩⟩ <;> omega
    · have hij : i = j := by omega
      subst hij
      omega
  · intro hceq hmeq hlex
    by_contra h0
    rcases Nat.lt_or_ge j i with hji | hji
    · have hle := hpw j i hj hi hji
      simp only [keyLe, sortKey, Bool.or_eq_true, Bool.and_eq_true, decide_eq_true_eq,
        beq_iff_eq, Bool.not_eq_true'] at hle
      rcases hle with h | ⟨h, h2 | ⟨h2, h3⟩⟩
      · omega
      · omega
      · rw [hlex] at h3
        cases h3
    · have hij : i = j := by omega
      subst hij
      rw [lexLt_irrefl] at hlex
      cases hlex

/-- A two-operation catalog, already in the fixed order, used to instantiate
the ordering theorem. -/
def exCatalogo : List CatalogEntry :=
  [⟨"a", "ORIGENS", "Rotativos"⟩, ⟨"b", "CONSIGNADO", "Parcelados"⟩]

theorem sort_catalogo_order_witness : (0 : Nat) < 1 := by
  have hsorted : exCatalogo.Pairwise (fun a b => keyLe (sortKey a) (sortKey b) = true) := by
    refine List.Pairwise.cons ?_ (List.Pairwise.cons (by intro a ha; cases ha) List.Pairwise.nil)
    intro a ha
    have ha2 : a = ⟨"b", "CONSIGNADO", "Parcelados"⟩ := by simpa using ha
    subst ha2
    decide
  have hcat : sort_catalogo exCatalogo = exCatalogo :=
    List.mergeSort_of_sorted hsorted
  have hlen : (sort_catalogo exCatalogo).length = 2 := by rw [hcat]; rfl
  have hi : 0 < (sort_catalogo exCatalogo).length := by omega
  have hj : 1 < (sort_catalogo exCatalogo).length := by omega
  refine (sort_catalogo_order exCatalogo 0 1 hi hj).1 ?_
  simp only [hcat]
  show cat_order "Rotativos" < cat_order "Parcelados"
  decide

/-! ## Batch reconciliation (`scripts/update_status.py`, `main`) -/

/-- The fixed status enum `VALID_STATUS`. -/
def VALID_STATUS : List String :=
  ["exec", "ok", "contingencia", "abend", "nao_comecou", "aguardando", "sem_exec"]

/-- One element of the update payload's `itens`; JSON fields that may be
missing or `null` are modelled with `Option` (`none` covers both, since the
code treats them identically through `dict.get` defaults and falsiness). -/
structure UpdateItem where
  nome : String
  status : Option String := none
  ultimo_job : Option String := none
  termino_real : Option String := none
  fim_de_jogo : Option Bool := none
  nota : Option String := none
deriving DecidableEq

/-- The fields stored into the `incoming` dict for one update item. -/
structure Fill where
  status : String
  ultimo_job : String
  termino_real : String
  fim_de_jogo : Bool
  nota : String
deriving DecidableEq

/-- Python `s.strip()` on strings. -/
def stripStr (s : String) : String :=
  ⟨pyStrip s.data⟩

/-- The normalisation of one incoming item (the `incoming[nome] = {...}`
block of `update_status.main`): `status` validated against `VALID_STATUS`
with fallback `"sem_exec"`, `ultimo_job`/`termino_real` defaulted to `"-"`
when missing, `null` or empty, `fim_de_jogo` coerced to a boolean (default
`False`), `nota` stripped (default `""`). -/
def fillOf (it : UpdateItem) : Fill :=
  { status :=
      let st := it.status.getD "sem_exec"
      if st ∈ VALID_STATUS then st else "sem_exec"
    ultimo_job :=
      match it.ultimo_job with
      | none => "-"
      | some s => if s = "" then "-" else s
    termino_real :=
      match it.termino_real with
      | none => "-"
      | some s => if s = "" then "-" else s
    fim_de_jogo := it.fim_de_jogo.getD false
    nota := stripStr (it.nota.getD "") }

/-- One `dict` assignment `incoming[nome] = fillOf it`, skipped when the
normalized name is empty. -/
def incomingStep (m : String → Option Fill) (it : UpdateItem) : String → Option Fill :=
  let nome := norm it.nome
  if nome = "" then m
  else fun k => if k = nome then some (fillOf it) else m k

/-- The `incoming` dict of `update_status.main`: built by iterating the
payload's `itens` in order, keyed by non-empty normalized name, later items
overwriting earlier ones; modelled as the dict's lookup function. -/
def buildIncoming (itens : List UpdateItem) : String → Option Fill :=
  itens.foldl incomingStep (fun _ => none)

/-- One persisted day item (an element of `dias[day]["itens"]`). -/
structure DayItem where
  id : String
  status : String
  ultimo_job : String
  termino_real : String
  fim_de_jogo : Bool
  nota : String
deriving DecidableEq

/-- The record appended for catalog entry `c` in the loop over
`catalogo_sorted` of `update_status.main`: the incoming fields when the
normalized name matched, the default `sem_exec` record otherwise. -/
def recordFor (c : CatalogEntry) (fill? : Option Fill) : DayItem :=
  match fill? with
  | some f => ⟨c.id, f.status, f.ultimo_job, f.termino_real, f.fim_de_jogo, f.nota⟩
  | none => ⟨c.id, "sem_exec", "-", "-", false, ""⟩

/-- `itens_final` of `update_status.main`. -/
def reconcileItens (catalogo : List CatalogEntry) (itens : List UpdateItem) : List DayItem :=
  (sort_catalogo catalogo).map (fun c => recordFor c (buildIncoming itens (norm c.nome)))

structure DayRecord where
  updatedAt : String
  itens : List DayItem
deriving DecidableEq

structure Payload where
  date : Option String := none
  updatedAt : Option String := none
  itens : List UpdateItem := []
deriving DecidableEq

/-- The day object written by one run of `update_status.main`:
`updatedAt` from the payload when present and non-empty (else
`datetime.now()`, passed in as `now`), `itens` fully reconciled. -/
def reconcileDay (catalogo : List CatalogEntry) (payload : Payload) (now : String) :
    DayRecord :=
  { updatedAt :=
      match payload.updatedAt with
      | none => now
      | some s => if s = "" then now else s
    itens := reconcileItens catalogo payload.itens }

/-- The predicate selecting the payload items that feed the `incoming` entry
for key `k`. -/
def matchesKey (k : String) (it : UpdateItem) : Bool :=
  norm it.nome == k && norm it.nome != ""

/-- The `incoming` dict lookup is the last payload item whose non-empty
normalized name equals the key (dict writes are last-wins). -/
theorem buildIncoming_eq_getLast (itens : List UpdateItem) (k : String) :
    buildIncoming itens k = ((itens.filter (matchesKey k)).getLast?).map fillOf := by
  induction itens using List.reverseRecOn with
  | nil => rfl
  | append_singleton l x ih =>
    have hfold : buildIncoming (l ++ [x]) = incomingStep (buildIncoming l) x := by
      unfold buildIncoming
      rw [List.foldl_append]
      rfl
    rw [hfold, List.filter_append]
    by_cases hm : matchesKey k x = true
    · rw [List.filter_cons_of_pos hm, List.filter_nil, List.getLast?_concat]
      simp only [matchesKey, Bool.and_eq_true, beq_iff_eq, bne_iff_ne] at hm
      unfold incomingStep
      rw [if_neg hm.2, if_pos hm.1.symm]
      rfl
    · rw [List.filter_cons_of_neg hm, List.filter_nil, List.append_nil, ← ih]
      simp only [matchesKey, Bool.and_eq_true, beq_iff_eq, bne_iff_ne, not_and] at hm
      unfold incomingStep
      by_cases h0 : norm x.nome = ""
      · rw [if_pos h0]
      · rw [if_neg h0]
        have hk : k ≠ norm x.nome := by
          intro hk0
          exact hm hk0.symm h0
        rw [if_neg hk]

theorem recordFor_id (c : CatalogEntry) (fill? : Option Fill) : (recordFor c fill?).id = c.id := by
  cases fill? <;> rfl

theorem reconcileItens_ids (catalogo : List CatalogEntry) (itens : List UpdateItem) :
    (reconcileItens catalogo itens).map (fun r => r.id) =
      (sort_catalogo catalogo).map (fun c => c.id) := by
  unfold reconcileItens
  rw [List.map_map]
  exact List.map_congr_left (fun c _ => recordFor_id c _)

/-- **C1.** For every catalog with unique ids and every update payload
(including one with zero items), the reconciled day record holds exactly one
status record per catalog operation id: as many items as catalog entries,
ids a permutation of the catalog ids, without duplicates, each catalog id
counted exactly once. -/
theorem reconcile_complete (catalogo : List CatalogEntry) (payload : Payload) (now : String)
    (h : (catalogo.map (fun c => c.id)).Nodup) :
    (reconcileDay catalogo payload now).itens.length = catalogo.length ∧
    ((reconcileDay catalogo payload now).itens.map (fun r => r.id)).Perm
      (catalogo.map (fun c => c.id)) ∧
    ((reconcileDay catalogo payload now).itens.map (fun r => r.id)).Nodup ∧
    ∀ cid ∈ catalogo.map (fun c => c.id),
      ((reconcileDay catalogo payload now).itens.map (fun r => r.id)).count cid = 1 := by
  have hids : (reconcileDay catalogo payload now).itens.map (fun r => r.id) =
      (sort_catalogo catalogo).map (fun c => c.id) := reconcileItens_ids catalogo payload.itens
  have hperm : ((sort_catalogo catalogo).map (fun c => c.id)).Perm
      (catalogo.map (fun c => c.id)) := (sort_catalogo_perm catalogo).map _
  refine ⟨?_, ?_, ?_, ?_⟩
  · have h1 : (reconcileDay catalogo payload now).itens.length =
        ((reconcileDay catalogo payload now).itens.map (fun r => r.id)).length :=
      (List.length_map _ _).symm
    rw [h1, hids, hperm.length_eq, List.length_map]
  · rw [hids]
    exact hperm
  · rw [hids]
    exact hperm.nodup_iff.mpr h
  · intro cid hcid
    rw [hids, hperm.count_eq]
    exact List.count_eq_one_of_mem h hcid

theorem reconcile_complete_witness :
    (reconcileDay exCatalogo ⟨some "2026-02-01", none, []⟩ "t").itens.length =
      exCatalogo.length :=
  (reconcile_complete exCatalogo ⟨some "2026-02-01", none, []⟩ "t" (by decide)).1

theorem reconcileItens_singleton (c : CatalogEntry) (itens : List UpdateItem) :
    reconcileItens [c] itens = [recordFor c (buildIncoming itens (norm c.nome))] := by
  unfold reconcileItens sort_catalogo
  rw [List.mergeSort_of_sorted (by simp)]
  rfl

/-- **C2** as frozen is refuted at two explicit inputs.  First, an incoming
item whose name normalizes to the empty string is discarded by the
`if not nome: continue` guard, so a catalog operation whose own name
normalizes to `""` still gets the default `sem_exec` record even though the
normalized names match and the item carries valid fields.  Second, when two
items share the same normalized name, the record is built from the last one,
not from (each) matching item: the first item's validated status `"ok"` is
not used. -/
theorem reconcile_fields_cex :
    (norm "" = norm "" ∧
      reconcileItens [⟨"a", "", "Rotativos"⟩]
          [⟨"", some "ok", none, none, some true, none⟩] =
        [⟨"a", "sem_exec", "-", "-", false, ""⟩] ∧
      (fillOf ⟨"", some "ok", none, none, some true, none⟩).status = "ok" ∧
      ("sem_exec" : String) ≠ "ok") ∧
    (norm "FOO" = norm "foo" ∧
      reconcileItens [⟨"a", "FOO", "Rotativos"⟩]
          [⟨"foo", some "ok", none, none, none, none⟩,
           ⟨"foo", some "abend", none, none, none, none⟩] =
        [⟨"a", "abend", "-", "-", false, ""⟩] ∧
      (fillOf ⟨"foo", some "ok", none, none, none, none⟩).status = "ok" ∧
      ("abend" : String) ≠ "ok") := by
  constructor
  · refine ⟨rfl, ?_, by decide, by decide⟩
    rw [reconcileItens_singleton]
    decide
  · refine ⟨by decide, ?_, by decide, by decide⟩
    rw [reconcileItens_singleton]
    decide

/-- **C2** (amended).  For every catalog operation during batch
reconciliation: if the operation's normalized name is non-empty and the
*last* incoming item with that normalized name is `it₀`, the record is built
from `it₀`'s fields (items whose names normalize to the empty string are
discarded); if no incoming item's normalized name equals the operation's,
the record is exactly `{status: sem_exec, ultimo_job: "-", termino_real:
"-", fim_de_jogo: false, nota: ""}`; and the per-field transformations are:
status mapped to `"sem_exec"` when absent or outside `VALID_STATUS`,
`ultimo_job`/`termino_real` defaulted to `"-"` when absent or blank,
`fim_de_jogo` coerced to boolean with default `false`, `nota` trimmed with
default `""`. -/
theorem reconcile_fields (itens : List UpdateItem) (c : CatalogEntry) :
    (∀ it₀ : UpdateItem, norm c.nome ≠ "" →
      (itens.filter (matchesKey (norm c.nome))).getLast? = some it₀ →
      recordFor c (buildIncoming itens (norm c.nome)) =
        ⟨c.id, (fillOf it₀).status, (fillOf it₀).ultimo_job, (fillOf it₀).termino_real,
          (fillOf it₀).fim_de_jogo, (fillOf it₀).nota⟩) ∧
    ((∀ it ∈ itens, norm it.nome ≠ norm c.nome) →
      recordFor c (buildIncoming itens (norm c.nome)) =
        ⟨c.id, "sem_exec", "-", "-", false, ""⟩) ∧
    (∀ it : UpdateItem,
      (it.status = none → (fillOf it).status = "sem_exec") ∧
      (∀ st, it.status = some st → st ∉ VALID_STATUS → (fillOf it).status = "sem_exec") ∧
      (∀ st, it.status = some st → st ∈ VALID_STATUS → (fillOf it).status = st) ∧
      ((it.ultimo_job = none ∨ it.ultimo_job = some "") → (fillOf it).ultimo_job = "-") ∧
      ((it.termino_real = none ∨ it.termino_real = some "") →
        (fillOf it).termino_real = "-") ∧
      (it.fim_de_jogo = none → (fillOf it).fim_de_jogo = false) ∧
      (∀ b, it.fim_de_jogo = some b → (fillOf it).fim_de_jogo = b) ∧
      (fillOf it).nota = stripStr (it.nota.getD "")) := by
  refine ⟨?_, ?_, ?_⟩
  · intro it₀ _ hlast
    rw [buildIncoming_eq_getLast, hlast]
    rfl
  · intro hno
    have hfil : itens.filter (matchesKey (norm c.nome)) = [] := by
      rw [List.filter_eq_nil_iff]
      intro it hit
      simp only [matchesKey, Bool.and_eq_true, beq_iff_eq, bne_iff_ne, not_and]
      intro hEq _
      exact hno it hit hEq
    rw [buildIncoming_eq_getLast, hfil]
    rfl
  · intro it
    refine ⟨?_, ?_, ?_, ?_, ?_, ?_, ?_, rfl⟩
    · intro h0
      simp [fillOf, h0, VALID_STATUS]
    · intro st h0 h1
      simp [fillOf, h0, h1]
    · intro st h0 h1
      simp [fillOf, h0, h1]
    · intro h0
      rcases h0 with h0 | h0 <;> simp [fillOf, h0]
    · intro h0
      rcases h0 with h0 | h0 <;> simp [fillOf, h0]
    · intro h0
      simp [fillOf, h0]
    · intro b h0
      simp [fillOf, h0]

theorem reconcile_fields_witness :
    recordFor ⟨"a", "FOO", "Rotativos"⟩
        (buildIncoming [⟨"foo", some "ok", none, none, some true, none⟩]
          (norm (CatalogEntry.nome ⟨"a", "FOO", "Rotativos"⟩))) =
      ⟨"a", "ok", "-", "-", true, ""⟩ := by
  have h := (reconcile_fields
    [⟨"foo", some "ok", none, none, some true, none⟩] ⟨"a", "FOO", "Rotativos"⟩).1
    ⟨"foo", some "ok", none, none, some true, none⟩ (by decide) (by decide)
  rw [h]
  decide

/-- **C3** as frozen is refuted at an explicit input: when the payload holds
two items with the same normalized name, swapping them changes the
reconciled day items, because the `incoming` dict keeps only the last
write. -/
theorem reconcile_order_cex :
    List.Perm
      [(⟨"foo", some "ok", none, none, none, none⟩ : UpdateItem),
        ⟨"foo", some "abend", none, none, none, none⟩]
      [⟨"foo", some "abend", none, none, none, none⟩,
        ⟨"foo", some "ok", none, none, none, none⟩] ∧
    reconcileItens [⟨"a", "FOO", "Rotativos"⟩]
        [⟨"foo", some "ok", none, none, none, none⟩,
          ⟨"foo", some "abend", none, none, none, none⟩] ≠
      reconcileItens [⟨"a", "FOO", "Rotativos"⟩]
        [⟨"foo", some "abend", none, none, none, none⟩,
          ⟨"foo", some "ok", none, none, none, none⟩] := by
  constructor
  · exact List.Perm.swap _ _ _
  · rw [reconcileItens_singleton, reconcileItens_singleton]
    decide

/-- The payload items' non-empty normalized names, with no duplicates: the
precondition under which reconciliation is insensitive to payload order. -/
def nodupNames (itens : List UpdateItem) : Prop :=
  ((itens.map (fun it => norm it.nome)).filter (fun s => s != "")).Nodup

instance (itens : List UpdateItem) : Decidable (nodupNames itens) := by
  unfold nodupNames
  infer_instance

theorem filter_matches_length_le_one (itens : List UpdateItem) (k : String)
    (hnodup : nodupNames itens) :
    (itens.filter (matchesKey k)).length ≤ 1 := by
  have hmap : (itens.filter (matchesKey k)).map (fun it => norm it.nome) =
      (itens.map (fun it => norm it.nome)).filter (fun s => s == k && s != "") := by
    rw [List.filter_map]
    congr 1
  have hff : (itens.map (fun it => norm it.nome)).filter (fun s => s == k && s != "") =
      ((itens.map (fun it => norm it.nome)).filter (fun s => s != "")).filter
        (fun s => s == k) := by
    rw [List.filter_filter]
  have hnodup2 : ((itens.filter (matchesKey k)).map (fun it => norm it.nome)).Nodup := by
    rw [hmap, hff]
    exact (List.filter_sublist _).nodup hnodup
  cases hF : itens.filter (matchesKey k) with
  | nil => simp
  | cons a t =>
    cases t with
    | nil => simp
    | cons b t2 =>
      exfalso
      have hmem : ∀ it ∈ itens.filter (matchesKey k), norm it.nome = k := by
        intro it hit
        have h0 := List.of_mem_filter hit
        simp only [matchesKey, Bool.and_eq_true, beq_iff_eq] at h0
        exact h0.1
      have ha : norm a.nome = k := hmem a (by rw [hF]; simp)
      have hb : norm b.nome = k := hmem b (by rw [hF]; simp)
      rw [hF] at hnodup2
      simp only [List.map_cons, List.nodup_cons, List.mem_cons, List.mem_map, not_or] at hnodup2
      exact hnodup2.1.1 (by rw [ha, hb])

theorem buildIncoming_perm (itens₁ itens₂ : List UpdateItem) (hperm : itens₁.Perm itens₂)
    (hnodup : nodupNames itens₁) (k : String) :
    buildIncoming itens₁ k = buildIncoming itens₂ k := by
  rw [buildIncoming_eq_getLast, buildIncoming_eq_getLast]
  have hpf : (itens₁.filter (matchesKey k)).Perm (itens₂.filter (matchesKey k)) :=
    hperm.filter _
  have hle : (itens₁.filter (matchesKey k)).length ≤ 1 :=
    filter_matches_length_le_one _ _ hnodup
  have heq : itens₁.filter (matchesKey k) = itens₂.filter (matchesKey k) := by
    cases hF : itens₁.filter (matchesKey k) with
    | nil =>
      rw [hF] at hpf
      exact (List.nil_perm.mp hpf).symm
    | cons a t =>
      cases t with
      | nil =>
        rw [hF] at hpf
        exact List.singleton_perm.mp hpf
      | cons b t2 =>
        rw [hF] at hle
        simp at hle
  rw [heq]

/-- **C3** (amended).  Batch reconciliation is insensitive to the order of
the incoming item list *provided no two items share the same non-empty
normalized name*: permuting the payload's `itens` then yields the same
reconciled day record; and, unconditionally, the ids of the reconciled items
always follow the fixed catalog order (`sort_catalogo`) regardless of the
payload. -/
theorem reconcile_order_insensitive (catalogo : List CatalogEntry)
    (itens₁ itens₂ : List UpdateItem) (d u : Option String) (now : String)
    (hperm : itens₁.Perm itens₂) (hnodup : nodupNames itens₁) :
    reconcileDay catalogo ⟨d, u, itens₁⟩ now = reconcileDay catalogo ⟨d, u, itens₂⟩ now ∧
    ∀ itens : List UpdateItem,
      (reconcileItens catalogo itens).map (fun r => r.id) =
        (sort_catalogo catalogo).map (fun c => c.id) := by
  constructor
  · have hit : reconcileItens catalogo itens₁ = reconcileItens catalogo itens₂ := by
      unfold reconcileItens
      exact List.map_congr_left
        (fun c _ => congrArg (recordFor c) (buildIncoming_perm _ _ hperm hnodup _))
    unfold reconcileDay
    rw [hit]
  · intro itens
    exact reconcileItens_ids catalogo itens

theorem reconcile_order_insensitive_witness :
    reconcileDay exCatalogo
        ⟨some "2026-02-01", none,
          [⟨"ORIGENS", some "ok", none, none, none, none⟩,
            ⟨"CONSIGNADO", some "abend", none, none, none, none⟩]⟩ "t" =
      reconcileDay exCatalogo
        ⟨some "2026-02-01", none,
          [⟨"CONSIGNADO", some "abend", none, none, none, none⟩,
            ⟨"ORIGENS", some "ok", none, none, none, none⟩]⟩ "t" :=
  (reconcile_order_insensitive exCatalogo _ _ _ _ "t" (List.Perm.swap _ _ _) (by decide)).1

/-- **C9.** When the payload holds several items whose names normalize to
the same non-empty string, the `incoming` entry for that name — and hence
the reconciled record of any catalog operation with that normalized name —
is built from the *last* such item in payload order; earlier duplicates are
silently discarded. -/
theorem reconcile_last_wins (itens : List UpdateItem) (nm : String) (it₀ : UpdateItem)
    (_hne : nm ≠ "") (hlast : (itens.filter (matchesKey nm)).getLast? = some it₀) :
    buildIncoming itens nm = some (fillOf it₀) ∧
    ∀ catalogo : List CatalogEntry,
      reconcileItens catalogo itens = (sort_catalogo catalogo).map (fun c =>
        if norm c.nome = nm then recordFor c (some (fillOf it₀))
        else recordFor c (buildIncoming itens (norm c.nome))) := by
  have hb : buildIncoming itens nm = some (fillOf it₀) := by
    rw [buildIncoming_eq_getLast, hlast]
    rfl
  refine ⟨hb, ?_⟩
  intro catalogo
  unfold reconcileItens
  apply List.map_congr_left
  intro c _
  by_cases hc : norm c.nome = nm
  · rw [if_pos hc, hc, hb]
  · rw [if_neg hc]

theorem reconcile_last_wins_witness :
    buildIncoming
        [⟨"foo", some "ok", none, none, none, none⟩,
          ⟨"foo", some "abend", none, none, none, none⟩] "FOO" =
      some (fillOf ⟨"foo", some "abend", none, none, none, none⟩) :=
  (reconcile_last_wins _ "FOO" _ (by decide) (by decide)).1

/-! ## WhatsApp report renderer (`preencher_malhas.build_whatsapp_report`)

The renderer receives `rows = (categoria, nome, status_key, fim_de_jogo,
obs)` tuples.  The `fim_emoji` of the source is computed but the line that
would append it to the text is commented out, so it does not influence the
output and is omitted from the model. -/

/-- A report row `(categoria, nome, status_key, fim_de_jogo, obs)`. -/
structure Row where
  categoria : String
  nome : String
  status : String
  fim : Bool
  obs : String
deriving DecidableEq

/-- `STATUS_MAP` of `preencher_malhas.py`: menu key ↦ (status key, glyph);
entry `"0"` holds `(None, None)`. -/
def STATUS_MAP : List (String × Option String × Option String) :=
  [("1", some "exec", some "🟡"), ("2", some "ok", some "🟢"),
   ("3", some "contingencia", some "🔵"), ("4", some "abend", some "🔴"),
   ("5", some "nao_comecou", some "⚪"), ("6", some "aguardando", some "⚫"),
   ("7", some "sem_exec", some "⚪"), ("0", none, none)]

/-- The glyph search loop of `build_whatsapp_report`: the first `STATUS_MAP`
value whose status key equals the row's status; a missing or falsy result
falls back to the neutral glyph `⚪`. -/
def emojiFor (st : String) : String :=
  match (STATUS_MAP.find? (fun e => e.2.1 == some st)).bind (fun e => e.2.2) with
  | some em => if em = "" then "⚪" else em
  | none => "⚪"

/-- One rendered row line: glyph, a space, the display name, and the note in
parentheses after two spaces when non-empty. -/
def lineOf (r : Row) : String :=
  emojiFor r.status ++ " " ++ r.nome ++ (if r.obs ≠ "" then "  (" ++ r.obs ++ ")" else "")

/-- A report-rendering failure: the `KeyError` raised by
`groups[cat].append(...)` for a category that is not a key of `groups`, or
the `ValueError` raised by `br_date` when the date does not split into
exactly three dash-separated fields. -/
inductive RepErr where
  | keyError (cat : String)
  | dateError
deriving DecidableEq

/-- `groups[cat].append(line)` on an association-list model of the dict:
append to the entry of the first matching key, `none` (`KeyError`) when the
key is absent. -/
def addLine : List (String × List String) → String → String →
    Option (List (String × List String))
  | [], _, _ => none
  | (c, ls) :: rest, cat, line =>
    if c = cat then some ((c, ls ++ [line]) :: rest)
    else
      match addLine rest cat line with
      | some g => some ((c, ls) :: g)
      | none => none

/-- The `groups` dict after the rendering loop over `rows`. -/
def buildGroups : List Row → List (String × List String) →
    Except RepErr (List (String × List String))
  | [], g => .ok g
  | r :: rs, g =>
    match addLine g r.categoria (lineOf r) with
    | some g2 => buildGroups rs g2
    | none => .error (.keyError r.categoria)

/-- `groups = {c: [] for c in ORDEM_CATEGORIAS}`. -/
def initGroups : List (String × List String) :=
  ORDEM_CATEGORIAS.map (fun c => (c, []))

/-- `groups[cat]` at rendering time (every rendered category is a key of
`groups`, so the `none` default is never reached from the renderer). -/
def lookupGroup (g : List (String × List String)) (cat : String) : List String :=
  match g.find? (fun e => e.1 == cat) with
  | some e => e.2
  | none => []

/-- Splitting a character list at every `'-'`, CPython's `split("-")`. -/
def splitDash (l : List Char) : List (List Char) :=
  l.foldr
    (fun c acc =>
      if c = '-' then [] :: acc
      else
        match acc with
        | [] => [[c]]
        | w :: ws => (c :: w) :: ws)
    [[]]

/-- `br_date`: `y, m, d = ymd.split("-")` then `f"{d}/{m}/{y}"`; `none`
models the `ValueError` raised when the split does not yield exactly three
fields. -/
def br_date (ymd : String) : Option String :=
  match splitDash ymd.data with
  | [y, m, d] => some (⟨d⟩ ++ "/" ++ ⟨m⟩ ++ "/" ++ ⟨y⟩)
  | _ => none

def LEGEND_GLYPHS : String :=
  "🟡 Em execução | 🟢 Finalizado | 🔵 Contingência | 🔴 Abend | ⚪ Não começou/Sem execução | ⚫ Aguardando condição"

def LEGEND_FIM : String :=
  "⚪/🔵 em “Fim de jogo” = não validado / validado"

/-- The `out` list of lines of `build_whatsapp_report`, before the final
`"\n".join(out)`.  The groups dict is built before the date is formatted,
as in the source, so a `KeyError` takes precedence over a bad date. -/
def reportLines (dia : String) (rows : List Row) : Except RepErr (List String) :=
  match buildGroups rows initGroups with
  | .error e => .error e
  | .ok g =>
    match br_date dia with
    | none => .error .dateError
    | some bd =>
      .ok (["Boa noite.\n", "Acompanhamento Malhas\n", "Odate: " ++ bd ++ "\n"] ++
        ORDEM_CATEGORIAS.flatMap (fun cat =>
          (cat ++ ":\n") ::
            ((if (lookupGroup g cat).isEmpty then ["- (sem itens)"]
              else (lookupGroup g cat).map (fun x => "- " ++ x)) ++ [""])) ++
        ["Legenda:", LEGEND_GLYPHS, LEGEND_FIM])

/-- `build_whatsapp_report`. -/
def build_whatsapp_report (dia : String) (rows : List Row) : Except RepErr String :=
  (reportLines dia rows).map (String.intercalate "\n")

/-! ### Spec-side description of the report (for the refinement statement)

These definitions follow the specification's words (§4.4): one section per
category in the fixed order, each built by filtering the rows of that
category, a placeholder line for empty sections, row lines made of a glyph
from the fixed status→glyph mapping (neutral glyph for unknown statuses),
the display name, and the note in parentheses when non-empty, with the
fixed legend block always appended. -/

def specGlyph (st : String) : String :=
  if st = "exec" then "🟡"
  else if st = "ok" then "🟢"
  else if st = "contingencia" then "🔵"
  else if st = "abend" then "🔴"
  else if st = "nao_comecou" then "⚪"
  else if st = "aguardando" then "⚫"
  else if st = "sem_exec" then "⚪"
  else "⚪"

def specLine (r : Row) : String :=
  specGlyph r.status ++ " " ++ r.nome ++ (if r.obs ≠ "" then "  (" ++ r.obs ++ ")" else "")

def specSection (rows : List Row) (cat : String) : List String :=
  (cat ++ ":\n") ::
    ((if (rows.filter (fun r => r.categoria == cat)).isEmpty then ["- (sem itens)"]
      else (rows.filter (fun r => r.categoria == cat)).map (fun r => "- " ++ specLine r)) ++
      [""])

def specReport (bd : String) (rows : List Row) : String :=
  String.intercalate "\n"
    (["Boa noite.\n", "Acompanhamento Malhas\n", "Odate: " ++ bd ++ "\n"] ++
      ORDEM_CATEGORIAS.flatMap (specSection rows) ++
      ["Legenda:", LEGEND_GLYPHS, LEGEND_FIM])

theorem emojiFor_eq_specGlyph (st : String) : emojiFor st = specGlyph st := by
  by_cases h1 : st = "exec"
  · subst h1; decide
  by_cases h2 : st = "ok"
  · subst h2; decide
  by_cases h3 : st = "contingencia"
  · subst h3; decide
  by_cases h4 : st = "abend"
  · subst h4; decide
  by_cases h5 : st = "nao_comecou"
  · subst h5; decide
  by_cases h6 : st = "aguardando"
  · subst h6; decide
  by_cases h7 : st = "sem_exec"
  · subst h7; decide
  have hf : STATUS_MAP.find? (fun e => e.2.1 == some st) = none := by
    rw [List.find?_eq_none]
    intro e he
    fin_cases he
    · intro hx
      have hx2 : "exec" = st := by simpa using hx
      exact h1 hx2.symm
    · intro hx
      have hx2 : "ok" = st := by simpa using hx
      exact h2 hx2.symm
    · intro hx
      have hx2 : "contingencia" = st := by simpa using hx
      exact h3 hx2.symm
    · intro hx
      have hx2 : "abend" = st := by simpa using hx
      exact h4 hx2.symm
    · intro hx
      have hx2 : "nao_comecou" = st := by simpa using hx
      exact h5 hx2.symm
    · intro hx
      have hx2 : "aguardando" = st := by simpa using hx
      exact h6 hx2.symm
    · intro hx
      have hx2 : "sem_exec" = st := by simpa using hx
      exact h7 hx2.symm
    · simp
  rw [emojiFor, hf]
  simp [specGlyph, h1, h2, h3, h4, h5, h6, h7]

theorem lineOf_eq_specLine (r : Row) : lineOf r = specLine r := by
  unfold lineOf specLine
  rw [emojiFor_eq_specGlyph]

theorem addLine_mem (g : List (String × List String)) (cat line : String)
    (h : cat ∈ g.map (fun e => e.1)) :
    ∃ g2, addLine g cat line = some g2 ∧
      g2.map (fun e => e.1) = g.map (fun e => e.1) ∧
      lookupGroup g2 cat = lookupGroup g cat ++ [line] ∧
      ∀ c2, c2 ≠ cat → lookupGroup g2 c2 = lookupGroup g c2 := by
  induction g with
  | nil => simp at h
  | cons e rest ih =>
    obtain ⟨c, ls⟩ := e
    by_cases he : c = cat
    · subst he
      refine ⟨(c, ls ++ [line]) :: rest, ?_, by simp, ?_, ?_⟩
      · unfold addLine
        rw [if_pos rfl]
      · unfold lookupGroup
        rw [List.find?_cons_of_pos _ (by simp), List.find?_cons_of_pos _ (by simp)]
      · intro c2 hc2
        unfold lookupGroup
        rw [List.find?_cons_of_neg _ (by simpa using (Ne.symm hc2)),
          List.find?_cons_of_neg _ (by simpa using (Ne.symm hc2))]
    · have hmem : cat ∈ rest.map (fun e => e.1) := by
        rw [List.map_cons] at h
        rcases List.mem_cons.mp h with h0 | h0
        · exact absurd h0.symm he
        · exact h0
      obtain ⟨g2, hg2, hkeys, hcat, hother⟩ := ih hmem
      refine ⟨(c, ls) :: g2, ?_, by simpa using hkeys, ?_, ?_⟩
      · unfold addLine
        rw [if_neg he, hg2]
      · unfold lookupGroup
        rw [List.find?_cons_of_neg _ (by simpa using he),
          List.find?_cons_of_neg _ (by simpa using he)]
        exact hcat
      · intro c2 hc2
        by_cases hcc : c = c2
        · subst hcc
          unfold lookupGroup
          rw [List.find?_cons_of_pos _ (by simp), List.find?_cons_of_pos _ (by simp)]
        · unfold lookupGroup
          rw [List.find?_cons_of_neg _ (by simpa using hcc),
            List.find?_cons_of_neg _ (by simpa using hcc)]
          exact hother c2 hc2

theorem addLine_none (g : List (String × List String)) (cat line : String)
    (h : cat ∉ g.map (fun e => e.1)) : addLine g cat line = none := by
  induction g with
  | nil => rfl
  | cons e rest ih =>
    obtain ⟨c, ls⟩ := e
    simp only [List.map_cons, List.mem_cons, not_or] at h
    unfold addLine
    rw [if_neg (show ¬ c = cat from fun hh => h.1 hh.symm), ih h.2]

theorem buildGroups_ok : ∀ (rows : List Row) (g : List (String × List String)),
    (∀ r ∈ rows, r.categoria ∈ g.map (fun e => e.1)) →
    ∃ g2, buildGroups rows g = .ok g2 ∧
      g2.map (fun e => e.1) = g.map (fun e => e.1) ∧
      ∀ cat, lookupGroup g2 cat =
        lookupGroup g cat ++ (rows.filter (fun r => r.categoria == cat)).map lineOf := by
  intro rows
  induction rows with
  | nil =>
    intro g _
    exact ⟨g, rfl, rfl, fun cat => by simp⟩
  | cons r rs ih =>
    intro g hmem
    obtain ⟨g1, hg1, hkeys1, hcat1, hoth1⟩ :=
      addLine_mem g r.categoria (lineOf r) (hmem r (by simp))
    obtain ⟨g2, hg2, hkeys2, hlook2⟩ := ih g1 (by
      intro r2 hr2
      rw [hkeys1]
      exact hmem r2 (by simp [hr2]))
    refine ⟨g2, ?_, by rw [hkeys2, hkeys1], ?_⟩
    · unfold buildGroups
      rw [hg1]
      exact hg2
    · intro cat
      by_cases hc : r.categoria = cat
      · subst hc
        rw [List.filter_cons_of_pos (by simp), List.map_cons, hlook2, hcat1,
          List.append_assoc, List.singleton_append]
      · rw [List.filter_cons_of_neg (by simp [hc]), hlook2 cat, hoth1 cat (Ne.symm hc)]

theorem initGroups_keys : initGroups.map (fun e => e.1) = ORDEM_CATEGORIAS := by
  unfold initGroups
  rw [List.map_map]
  rfl

theorem lookupGroup_init (cat : String) : lookupGroup initGroups cat = [] := by
  unfold lookupGroup
  cases hf : initGroups.find? (fun e => e.1 == cat) with
  | none => rfl
  | some e =>
    have he := List.mem_of_find?_eq_some hf
    unfold initGroups at he
    rcases List.mem_map.mp he with ⟨c, _, hc⟩
    rw [← hc]

/-- **C6.** For every date accepted by `br_date` (three dash-separated
fields, per the ISO interface format) and every row list whose categories
all lie in the fixed category list, `build_whatsapp_report` succeeds and
renders exactly the spec-shaped report: one section per fixed category in
the fixed order, the placeholder line `- (sem itens)` for each empty
section, one line per row made of the status glyph (the neutral ⚪ for any
status outside the fixed mapping), the display name, and the note in
parentheses only when non-empty, and the fixed legend block appended at
the end. -/
theorem build_report_spec (dia bd : String) (rows : List Row)
    (hdate : br_date dia = some bd)
    (hcats : ∀ r ∈ rows, r.categoria ∈ ORDEM_CATEGORIAS) :
    build_whatsapp_report dia rows = .ok (specReport bd rows) := by
  obtain ⟨g2, hok, hkeys, hlook⟩ := buildGroups_ok rows initGroups (by
    intro r hr
    rw [initGroups_keys]
    exact hcats r hr)
  have hsec : List.map
      (fun cat =>
        (cat ++ ":\n") ::
          ((if (lookupGroup g2 cat).isEmpty then ["- (sem itens)"]
            else (lookupGroup g2 cat).map (fun x => "- " ++ x)) ++ [""]))
      ORDEM_CATEGORIAS = List.map (specSection rows) ORDEM_CATEGORIAS := by
    apply List.map_congr_left
    intro cat _
    rw [hlook cat, lookupGroup_init, List.nil_append]
    unfold specSection
    congr 1
    cases hF : rows.filter (fun r => r.categoria == cat) with
    | nil => rfl
    | cons a t =>
      simp only [List.map_cons, List.isEmpty_cons, List.map_map, Bool.false_eq_true,
        if_false]
      rw [lineOf_eq_specLine]
      have htail : List.map ((fun x => "- " ++ x) ∘ lineOf) t =
          List.map (fun r => "- " ++ specLine r) t :=
        List.map_congr_left (fun r _ => by
          show "- " ++ lineOf r = "- " ++ specLine r
          rw [lineOf_eq_specLine])
      rw [htail]
  unfold build_whatsapp_report reportLines specReport List.flatMap
  rw [hok, hdate]
  dsimp only
  rw [hsec]
  rfl

theorem build_report_spec_witness :
    build_whatsapp_report "2026-02-01" [⟨"Rotativos", "ORIGENS", "ok", true, ""⟩] =
      .ok (specReport "01/02/2026" [⟨"Rotativos", "ORIGENS", "ok", true, ""⟩]) :=
  build_report_spec _ _ _ (by decide) (by decide)

theorem buildGroups_err : ∀ (rows : List Row) (g : List (String × List String)),
    (∃ r ∈ rows, r.categoria ∉ g.map (fun e => e.1)) →
    ∃ cat, buildGroups rows g = .error (.keyError cat) ∧ cat ∉ g.map (fun e => e.1) := by
  intro rows
  induction rows with
  | nil =>
    intro g h
    obtain ⟨r, hr, _⟩ := h
    cases hr
  | cons r rs ih =>
    intro g h
    by_cases hr : r.categoria ∈ g.map (fun e => e.1)
    · obtain ⟨g1, hg1, hkeys1, _, _⟩ := addLine_mem g r.categoria (lineOf r) hr
      obtain ⟨r0, hr0, hbad⟩ := h
      have hr0rs : r0 ∈ rs := by
        rcases List.mem_cons.mp hr0 with h0 | h0
        · subst h0
          exact absurd hr hbad
        · exact h0
      obtain ⟨cat, hcat, hnot⟩ := ih g1 ⟨r0, hr0rs, by rw [hkeys1]; exact hbad⟩
      refine ⟨cat, ?_, by rw [← hkeys1]; exact hnot⟩
      unfold buildGroups
      rw [hg1]
      exact hcat
    · refine ⟨r.categoria, ?_, hr⟩
      unfold buildGroups
      rw [addLine_none g r.categoria (lineOf r) hr]

/-- **C10.** The report renderer is partial in the row category: any row
whose category is outside the five fixed categories (such as the `"-"`
fallback category produced for a day item whose id is absent from the
catalog) makes `build_whatsapp_report` fail with the `KeyError` of
`groups[cat]`, whatever the date; and when every row category is in the
fixed list, the error branch of the grouping loop is unreachable. -/
theorem build_report_category_error (dia : String) (rows : List Row) :
    ((∃ r ∈ rows, r.categoria ∉ ORDEM_CATEGORIAS) →
      ∃ cat, build_whatsapp_report dia rows = .error (.keyError cat) ∧
        cat ∉ ORDEM_CATEGORIAS) ∧
    ((∀ r ∈ rows, r.categoria ∈ ORDEM_CATEGORIAS) →
      ∃ g, buildGroups rows initGroups = .ok g) ∧
    ("-" : String) ∉ ORDEM_CATEGORIAS := by
  refine ⟨?_, ?_, by decide⟩
  · intro h
    obtain ⟨r0, hr0, hbad⟩ := h
    obtain ⟨cat, hcat, hnot⟩ := buildGroups_err rows initGroups
      ⟨r0, hr0, by rw [initGroups_keys]; exact hbad⟩
    refine ⟨cat, ?_, by rw [← initGroups_keys]; exact hnot⟩
    unfold build_whatsapp_report reportLines
    rw [hcat]
    rfl
  · intro h
    obtain ⟨g2, hok, _, _⟩ := buildGroups_ok rows initGroups (by
      intro r hr
      rw [initGroups_keys]
      exact h r hr)
    exact ⟨g2, hok⟩

theorem build_report_category_error_witness :
    ∃ cat, build_whatsapp_report "2026-02-01" [⟨"-", "ORIGENS", "ok", false, ""⟩] =
        .error (.keyError cat) ∧ cat ∉ ORDEM_CATEGORIAS :=
  (build_report_category_error "2026-02-01" [⟨"-", "ORIGENS", "ok", false, ""⟩]).1
    ⟨⟨"-", "ORIGENS", "ok", false, ""⟩, by simp, by decide⟩

/-! ## Process-level flow of `update_status.main` and the store gate of
`preencher_malhas.main` -/

/-- The store document: the catalog and the per-date day records (`dias`,
an insertion-ordered dict modelled as an association list). -/
structure StoreDoc where
  catalogo_malhas : List CatalogEntry
  dias : List (String × DayRecord)
deriving DecidableEq

/-- Replace the first entry for `day`, or append a new one: the net effect
of `ensure_day` followed by the in-place rewrite of `dia_obj`. -/
def upsertDay : List (String × DayRecord) → String → DayRecord → List (String × DayRecord)
  | [], day, rec => [(day, rec)]
  | (d, r) :: rest, day, rec =>
    if d = day then (d, rec) :: rest
    else (d, r) :: upsertDay rest day rec

/-- The files visible to `update_status.main`: the store (`malhas.json`)
and the named update-payload file; `none` means the file does not exist. -/
structure World where
  store : Option StoreDoc
  updateFile : Option Payload
deriving DecidableEq

/-- One run of `update_status.main`: `argPresent` tells whether an
update-file argument was given, `now` stands for `datetime.now()`.  The
failure paths (usage message, missing update file, missing store —
`load_json` raising `FileNotFoundError` —, missing or falsy `date`)
return the console message and leave the world unchanged; the success path
writes the reconciled day into the store. -/
def runUpdateStatus (argPresent : Bool) (w : World) (now : String) :
    Except String Unit × World :=
  if !argPresent then
    (.error "Uso: python scripts/update_status.py updates/AAAA-MM-DD.json", w)
  else
    match w.updateFile with
    | none => (.error "Arquivo não encontrado", w)
    | some payload =>
      match w.store with
      | none => (.error "FileNotFoundError: malhas.json", w)
      | some data =>
        match payload.date with
        | none =>
          (.error "O arquivo de update precisa ter o campo 'date' em YYYY-MM-DD", w)
        | some day =>
          if day = "" then
            (.error "O arquivo de update precisa ter o campo 'date' em YYYY-MM-DD", w)
          else
            (.ok (),
              { w with
                store := some
                  { data with
                    dias := upsertDay data.dias day
                      (reconcileDay data.catalogo_malhas payload now) } })

/-- The `malhas.json` existence gate at the top of `preencher_malhas.main`
(lines 239–242): when the store file is missing it prints a message and
returns early, leaving the persisted store untouched.  The interactive rest
of that `main` is outside this model. -/
def preencherGate (store : Option StoreDoc) : Except String Unit × Option StoreDoc :=
  match store with
  | none => (.error "Não achei malhas.json na pasta atual.", none)
  | some s => (.ok (), some s)

/-- **C7.** A run with no argument, a missing update-payload file, a
missing store document, or a payload without a usable `date` field stops
with a console message and leaves the persisted store unchanged; otherwise
the run succeeds.  The interactive script's store gate likewise returns
early with a message and never touches the store. -/
theorem run_errors (w : World) (now : String) :
    (runUpdateStatus false w now =
      (.error "Uso: python scripts/update_status.py updates/AAAA-MM-DD.json", w)) ∧
    (w.updateFile = none →
      runUpdateStatus true w now = (.error "Arquivo não encontrado", w)) ∧
    (∀ p, w.updateFile = some p → w.store = none →
      runUpdateStatus true w now = (.error "FileNotFoundError: malhas.json", w)) ∧
    (∀ p data, w.updateFile = some p → w.store = some data →
      (p.date = none ∨ p.date = some "") →
      runUpdateStatus true w now =
        (.error "O arquivo de update precisa ter o campo 'date' em YYYY-MM-DD", w)) ∧
    (∀ p data day, w.updateFile = some p → w.store = some data → p.date = some day →
      day ≠ "" → (runUpdateStatus true w now).1 = .ok ()) ∧
    (preencherGate none = (.error "Não achei malhas.json na pasta atual.", none)) ∧
    (∀ st, (preencherGate st).2 = st) := by
  refine ⟨rfl, ?_, ?_, ?_, ?_, rfl, ?_⟩
  · intro h
    simp [runUpdateStatus, h]
  · intro p hp hs
    simp [runUpdateStatus, hp, hs]
  · intro p data hp hs hd
    rcases hd with hd | hd <;> simp [runUpdateStatus, hp, hs, hd]
  · intro p data day hp hs hd hday
    simp [runUpdateStatus, hp, hs, hd, hday]
  · intro st
    cases st <;> rfl

theorem run_errors_witness :
    runUpdateStatus true ⟨some ⟨[], []⟩, none⟩ "t" =
      (.error "Arquivo não encontrado", ⟨some ⟨[], []⟩, none⟩) :=
  (run_errors ⟨some ⟨[], []⟩, none⟩ "t").2.1 rfl

/-! ## Atomic persistence (`save_json` in both scripts) -/

/-- Primitive file-system operations. -/
inductive FsOp where
  | write (path : String) (content : String)
  | rename (src : String) (dst : String)
deriving DecidableEq

/-- Effect of one operation on the file system (path ↦ contents); `rename`
atomically moves the source over the destination. -/
def applyOp (fs : String → Option String) : FsOp → String → Option String
  | .write p c => fun q => if q = p then some c else fs q
  | .rename src dst => fun q =>
      if q = dst then fs src else if q = src then none else fs q

def applyOps (fs : String → Option String) (ops : List FsOp) : String → Option String :=
  ops.foldl applyOp fs

/-- `Path.with_suffix(".tmp")` as used by `update_status.save_json`: the
last dot-extension replaced by `.tmp`. -/
def dropLastExt (cs : List Char) : List Char :=
  match cs.reverse.findIdx? (fun c => c == '.') with
  | some i => cs.take (cs.length - i - 1)
  | none => cs

def withSuffixTmp (p : String) : String :=
  ⟨dropLastExt p.data ++ ".tmp".data⟩

/-- The trace of `update_status.save_json path data`: write the whole
serialized document to the temporary path, then rename it over `path` in
one atomic step. -/
def saveOpsU (path content : String) : List FsOp :=
  [.write (withSuffixTmp path) content, .rename (withSuffixTmp path) path]

/-- The trace of `preencher_malhas.save_json` (its temporary path is
`path + ".tmp"`). -/
def saveOpsP (path content : String) : List FsOp :=
  [.write (path ++ ".tmp") content, .rename (path ++ ".tmp") path]

theorem save_trace_facts (fs : String → Option String) (p content : String)
    (tmp : String) (htmp : tmp ≠ p) :
    (applyOps fs [.write tmp content, .rename tmp p] p = some content) ∧
    (∀ k, k < 2 → applyOps fs ((([.write tmp content, .rename tmp p]) : List FsOp).take k) p
      = fs p) ∧
    (∀ k, applyOps fs ((([.write tmp content, .rename tmp p]) : List FsOp).take k) p = fs p ∨
      applyOps fs ((([.write tmp content, .rename tmp p]) : List FsOp).take k) p
        = some content) ∧
    (∀ pre : List FsOp, (∀ op ∈ pre, ∃ c, op = .write tmp c) →
      applyOps fs pre p = fs p) := by
  have hwrite : applyOp fs (.write tmp content) p = fs p := by
    show (if p = tmp then some content else fs p) = fs p
    rw [if_neg (Ne.symm htmp)]
  have hfull : applyOps fs [.write tmp content, .rename tmp p] p = some content := by
    unfold applyOps applyOp
    simp
  have hpre : ∀ (pre : List FsOp) (fs0 : String → Option String),
      (∀ op ∈ pre, ∃ c, op = .write tmp c) → applyOps fs0 pre p = fs0 p := by
    intro pre
    induction pre with
    | nil => intro fs0 _; rfl
    | cons op rest ih =>
      intro fs0 h
      obtain ⟨c, hc⟩ := h op (by simp)
      subst hc
      have h2 : applyOps fs0 (FsOp.write tmp c :: rest) p =
          applyOps (applyOp fs0 (.write tmp c)) rest p := rfl
      rw [h2, ih _ (fun op2 hop2 => h op2 (by simp [hop2]))]
      show (if p = tmp then some c else fs0 p) = fs0 p
      rw [if_neg (Ne.symm htmp)]
  refine ⟨hfull, ?_, ?_, fun pre h => hpre pre fs h⟩
  · intro k hk
    match k, hk with
    | 0, _ => rfl
    | 1, _ =>
      show applyOps fs [.write tmp content] p = fs p
      exact hwrite
  · intro k
    match k with
    | 0 => exact Or.inl rfl
    | 1 => exact Or.inl hwrite
    | k + 2 =>
      rw [List.take_of_length_le (by simp)]
      exact Or.inr hfull

/-- **C8.** Both `save_json` implementations write the whole document to a
temporary path (distinct from the original) and then rename it over the
original in one atomic step: after the full trace the original path holds
the complete new document; at every intermediate point the original path
holds either its old bytes or the complete new document, never a partial
write; any run that aborts before the final rename — including one
interrupted in the middle of writing the temporary file — leaves the
original path byte-for-byte unchanged. -/
theorem save_json_atomic (fs : String → Option String) (p content : String) :
    (withSuffixTmp p ≠ p →
      (applyOps fs (saveOpsU p content) p = some content ∧
       (∀ k, k < (saveOpsU p content).length →
         applyOps fs ((saveOpsU p content).take k) p = fs p) ∧
       (∀ k, applyOps fs ((saveOpsU p content).take k) p = fs p ∨
         applyOps fs ((saveOpsU p content).take k) p = some content) ∧
       (∀ pre : List FsOp, (∀ op ∈ pre, ∃ c, op = .write (withSuffixTmp p) c) →
         applyOps fs pre p = fs p))) ∧
    (p ++ ".tmp" ≠ p →
      (applyOps fs (saveOpsP p content) p = some content ∧
       (∀ k, k < (saveOpsP p content).length →
         applyOps fs ((saveOpsP p content).take k) p = fs p) ∧
       (∀ k, applyOps fs ((saveOpsP p content).take k) p = fs p ∨
         applyOps fs ((saveOpsP p content).take k) p = some content) ∧
       (∀ pre : List FsOp, (∀ op ∈ pre, ∃ c, op = .write (p ++ ".tmp") c) →
         applyOps fs pre p = fs p))) := by
  constructor
  · intro htmp
    exact save_trace_facts fs p content (withSuffixTmp p) htmp
  · intro htmp
    exact save_trace_facts fs p content (p ++ ".tmp") htmp

theorem save_json_atomic_witness :
    applyOps (fun _ => none) (saveOpsU "malhas.json" "DOC") "malhas.json" = some "DOC" ∧
    applyOps (fun _ => none) (saveOpsP "malhas.json" "DOC") "malhas.json" = some "DOC" :=
  ⟨((save_json_atomic (fun _ => none) "malhas.json" "DOC").1 (by decide)).1,
   ((save_json_atomic (fun _ => none) "malhas.json" "DOC").2 (by decide)).1⟩

end Malhas
